import Mathlib

/-!
Shallow embedding of `generate_lab_catalog.py`: a one-shot catalog generator that
walks markdown lab files, extracts frontmatter metadata and technology mentions,
queries git history for provenance, and serializes records to a CSV file.

Strings are modelled as `List Char` internally (`String.data`); the external
git queries are modelled as oracle values of type `Except Unit (Int × String)`,
an `Except.error` standing for a raised exception of `subprocess.run` and an
`Except.ok (rc, out)` for a completed process with return code `rc` and
captured standard output `out`.
-/

/-- Python whitespace (the characters recognized by `str.strip`, `str.split` and `\s`). -/
def pyWS (c : Char) : Bool :=
  c = ' ' ∨ c = '\t' ∨ c = '\n' ∨ c = '\r' ∨ c = '\x0b' ∨ c = '\x0c'

/-- Python `str.strip()` on a character list. -/
def trimChars (cs : List Char) : List Char :=
  ((cs.dropWhile pyWS).reverse.dropWhile pyWS).reverse

/-- `str.split(sep)` for a single-character separator, keeping empty pieces. -/
def splitOnC (sep : Char) : List Char → List (List Char)
  | [] => [[]]
  | c :: cs =>
    if c = sep then [] :: splitOnC sep cs
    else
      match splitOnC sep cs with
      | [] => [[c]]
      | p :: ps => (c :: p) :: ps

/-- The first whitespace-separated token (`s.split()[0]`), `none` when there is none
(in which case the Python code raises `IndexError`). -/
def firstTok (s : List Char) : Option (List Char) :=
  match s.dropWhile pyWS with
  | [] => none
  | c :: cs => some (c :: cs.takeWhile (fun d => ¬ pyWS d))

/-- Lexicographic (code-point) comparison of character lists, the order Python uses
to compare strings. -/
def listLe : List Char → List Char → Bool
  | [], _ => true
  | _ :: _, [] => false
  | a :: lA, b :: lB => if a < b then true else if b < a then false else listLe lA lB

/-- ASCII lower-casing of a character (what `re.IGNORECASE` / `str.lower` do on ASCII). -/
def lowerChar (c : Char) : Char :=
  if 'A' ≤ c ∧ c ≤ 'Z' then Char.ofNat (c.toNat + 32) else c

/-- Case-insensitive string order (`key=str.lower`). -/
def leCI (a b : List Char) : Bool := listLe (a.map lowerChar) (b.map lowerChar)

/-- Insert into a list sorted by `le`, before the first element it is `le` to.
Together with `sortLe` this is a stable sort, like Python's `sorted`. -/
def insertLe (le : α → α → Bool) (x : α) : List α → List α
  | [] => [x]
  | y :: ys => if le x y then x :: y :: ys else y :: insertLe le x ys

/-- Stable insertion sort by `le` (models Python's stable `sorted`). -/
def sortLe (le : α → α → Bool) : List α → List α
  | [] => []
  | x :: xs => insertLe le x (sortLe le xs)

/-! ## Content Parser: frontmatter (`parse_frontmatter`) -/

/-- The maximal run of leading whitespace. -/
def wsRun (cs : List Char) : List Char := cs.takeWhile pyWS

/-- Exact (case-sensitive) literal prefix test. -/
def isPrefLit : List Char → List Char → Bool
  | [], _ => true
  | _ :: _, [] => false
  | k :: ks, c :: cs => k = c ∧ isPrefLit ks cs

/-- Does `\n---\s*\n` match at the head of the list?  This is the closing
delimiter sought by the frontmatter regex `^---\s*\n(.*?)\n---\s*\n`. -/
def closeHere (l : List Char) : Bool :=
  isPrefLit ['\n', '-', '-', '-'] l ∧ (wsRun (l.drop 4)).any (fun c => c = '\n')

/-- Scan for the leftmost closing delimiter; returns the (lazy, minimal) group
of characters before it. -/
def findClose : List Char → Option (List Char)
  | [] => none
  | c :: cs => if closeHere (c :: cs) then some [] else (findClose cs).map (fun g => c :: g)

/-- Indices of `'\n'` inside the opening whitespace run, in decreasing order:
the backtracking order of the greedy `\s*` in `^---\s*\n`. -/
def nlIdxDesc (run : List Char) : List Nat :=
  ((List.range run.length).filter (fun i => run.getD i ' ' = '\n')).reverse

/-- Try each split point of the opening `\s*\n` (greedy first) and look for a close. -/
def tryKs (rest0 : List Char) : List Nat → Option (List Char)
  | [] => none
  | k :: ks =>
    match findClose (rest0.drop (k + 1)) with
    | some g => some g
    | none => tryKs rest0 ks

/-- `re.match(r'^---\s*\n(.*?)\n---\s*\n', content, re.DOTALL)`: returns the
frontmatter body (group 1) when the anchored pattern matches. -/
def fmMatch : List Char → Option (List Char)
  | '-' :: '-' :: '-' :: rest0 => tryKs rest0 (nlIdxDesc (wsRun rest0))
  | _ => none

/-- Is the character a single or double quote (the `['\"]` character class)? -/
def isQuoteC (c : Char) : Bool := c = '\'' ∨ c = '"'

/-- The lazy group `(.+?)` followed by `['\"]`: collect at least one non-newline
character until the first quote character; `none` when a newline or the end
intervenes (the regex occurrence fails there). -/
def grabGo (acc : List Char) : List Char → Option (List Char)
  | [] => none
  | c :: cs =>
    if isQuoteC c then some acc.reverse
    else if c = '\n' then none
    else grabGo (c :: acc) cs

/-- The value part after an opening quote. -/
def grabValue : List Char → Option (List Char)
  | [] => none
  | c :: cs => if c = '\n' then none else grabGo [c] cs

/-- Try `key\s*['\"](.+?)['\"]` anchored at the head of `s`. -/
def tryKeyAt (key : List Char) (s : List Char) : Option (List Char) :=
  if isPrefLit key s then
    match (s.drop key.length).dropWhile pyWS with
    | [] => none
    | q :: tail => if isQuoteC q then grabValue tail else none
  else none

/-- `re.search` for `key\s*['\"](.+?)['\"]`: leftmost occurrence wins. -/
def searchVal (key : List Char) : List Char → Option (List Char)
  | [] => none
  | c :: cs =>
    match tryKeyAt key (c :: cs) with
    | some v => some v
    | none => searchVal key cs

/-- The key sequence of `title:\s*['\"](.+?)['\"]`. -/
def titleKey : List Char := "title:".data

/-- The key sequence of `description:\s*['\"](.+?)['\"]`. -/
def descKey : List Char := "description:".data

/-- One field line of a metadata block: a key including its colon (e.g. `title:`),
optional spacing, and a quoted value. -/
structure FieldLine where
  key : List Char
  sp : List Char
  quote : Char
  value : List Char
deriving DecidableEq

/-- The characters of a field line. -/
def lineChars (L : FieldLine) : List Char :=
  L.key ++ L.sp ++ L.quote :: (L.value ++ [L.quote])

/-- Join lines with newline separators (no trailing newline). -/
def joinLines : List (List Char) → List Char
  | [] => []
  | [l] => l
  | l :: ls => l ++ '\n' :: joinLines ls

/-- Does `key` occur as a contiguous substring? -/
def occursB (key : List Char) : List Char → Bool
  | [] => isPrefLit key []
  | c :: cs => isPrefLit key (c :: cs) || occursB key cs

/-- A well-formed field key: nonempty, not starting with a dash, containing no
quote and no whitespace characters. -/
@[reducible] def goodKey (k : List Char) : Prop :=
  k ≠ [] ∧ k.head? ≠ some '-' ∧ ∀ c ∈ k, isQuoteC c = false ∧ pyWS c = false

/-- Spacing between the key and the value: spaces or tabs, no newline. -/
@[reducible] def goodSp (sp : List Char) : Prop := ∀ c ∈ sp, pyWS c = true ∧ c ≠ '\n'

/-- A value with no quote and no newline characters (it may be empty, and may
contain colons or any other characters). -/
@[reducible] def goodVal (v : List Char) : Prop := ∀ c ∈ v, isQuoteC c = false ∧ c ≠ '\n'

/-- A well-formed field line. -/
@[reducible] def goodLine (L : FieldLine) : Prop :=
  goodKey L.key ∧ goodSp L.sp ∧ isQuoteC L.quote = true ∧ goodVal L.value

/-- A key the regex searches for: nonempty, no quote or whitespace characters. -/
@[reducible] def goodSearchKey (key : List Char) : Prop :=
  key ≠ [] ∧ ∀ c ∈ key, isQuoteC c = false ∧ pyWS c = false

/-- Last non-newline character of a list, if any (used by the `$`-backtracking
corner of the H1 regex when the document ends inside the whitespace run). -/
def lastNonNl (run : List Char) : Option Char :=
  (run.filter (fun c => c ≠ '\n')).getLast?

/-- Try `#\s+(.+)$` at the head of a line, returning the (greedy) group. -/
def h1At : List Char → Option (List Char)
  | '#' :: rest =>
    let run := rest.takeWhile pyWS
    if run = [] then none
    else
      match rest.drop run.length with
      | c :: cs => some (c :: cs.takeWhile (fun d => d ≠ '\n'))
      | [] =>
        match lastNonNl run with
        | some c => some [c]
        | none => none
  | _ => none

/-- Scan for the leftmost line start where `^#\s+(.+)$` matches (`re.MULTILINE`). -/
def h1Scan : Bool → List Char → Option (List Char)
  | _, [] => none
  | atStart, c :: cs =>
    match (if atStart then h1At (c :: cs) else none) with
    | some g => some g
    | none => h1Scan (c = '\n') cs

/-- `re.search(r'^#\s+(.+)$', content, re.MULTILINE)`, group 1. -/
def h1Title (cs : List Char) : Option (List Char) := h1Scan true cs

/-- Does the line start with `'# '`? -/
def isH1Line : List Char → Bool
  | '#' :: ' ' :: _ => true
  | _ => false

/-- Does the line start with `'#'`? -/
def startsHash : List Char → Bool
  | '#' :: _ => true
  | _ => false

/-- Does the line start with `'!'`? -/
def startsBang : List Char → Bool
  | '!' :: _ => true
  | _ => false

/-- The fallback description accumulation loop of `parse_frontmatter`: gather
stripped content lines after a `'# '` line until the joined text exceeds 100
characters. -/
def buildDesc : List (List Char) → Bool → List (List Char) → List (List Char)
  | [], _, acc => acc
  | l :: ls, inc, acc =>
    if isH1Line l then buildDesc ls true acc
    else
      if inc ∧ trimChars l ≠ [] ∧ ¬ startsHash l ∧ ¬ startsBang l then
        if (List.intercalate [' '] (acc ++ [trimChars l])).length > 100 then acc ++ [trimChars l]
        else buildDesc ls inc (acc ++ [trimChars l])
      else buildDesc ls inc acc

/-- The fallback description: joined collected lines, truncated to 200 characters. -/
def buildDescription (cs : List Char) : List Char :=
  (List.intercalate [' '] (buildDesc (splitOnC '\n' cs) false [])).take 200

/-- `parse_frontmatter(content)`: frontmatter extraction with H1 fallback. -/
def parse_frontmatter (content : String) : String × String :=
  match fmMatch content.data with
  | some fm =>
    (String.mk ((searchVal titleKey fm).getD []), String.mk ((searchVal descKey fm).getD []))
  | none =>
    match h1Title content.data with
    | some g => (String.mk (trimChars g), String.mk (buildDescription content.data))
    | none => ("", "")

/-! ## Content Parser: technologies (`extract_technologies`) -/

/-- One token of a technology pattern: a case-insensitive literal, the greedy
`\s+`, or an ordered alternation of case-insensitive literals (an empty
alternative encodes `?`). Every pattern is implicitly wrapped in `\b ... \b`. -/
inductive Tok where
  | lit : List Char → Tok
  | ws : Tok
  | alts : List (List Char) → Tok

/-- Match a case-insensitive literal at the head; returns the matched source
characters (original casing) and the rest. -/
def matchLit : List Char → List Char → Option (List Char × List Char)
  | [], cs => some ([], cs)
  | _ :: _, [] => none
  | p :: ps, c :: cs =>
    if lowerChar p = lowerChar c then (matchLit ps cs).map (fun pr => (c :: pr.1, pr.2))
    else none

/-- Split off the maximal leading whitespace run. -/
def takeWsRun : List Char → List Char × List Char
  | [] => ([], [])
  | c :: cs =>
    if pyWS c then
      match takeWsRun cs with
      | (run, rest) => (c :: run, rest)
    else ([], c :: cs)

/-- All ways a token sequence can match a prefix of `cs`, in regex preference
order (alternatives tried left to right; `\s+` is safely maximal here because
in every pattern it is followed by a non-whitespace literal). Each outcome is
(matched characters, remaining characters). -/
def matchToksAll : List Tok → List Char → List (List Char × List Char)
  | [], cs => [([], cs)]
  | Tok.lit s :: ts, cs =>
    match matchLit s cs with
    | some (m, r) => (matchToksAll ts r).map (fun pr => (m ++ pr.1, pr.2))
    | none => []
  | Tok.ws :: ts, cs =>
    match takeWsRun cs with
    | ([], _) => []
    | (run, rest) => (matchToksAll ts rest).map (fun pr => (run ++ pr.1, pr.2))
  | Tok.alts alist :: ts, cs =>
    (alist.map (fun a =>
      match matchLit a cs with
      | some (m, r) => (matchToksAll ts r).map (fun pr => (m ++ pr.1, pr.2))
      | none => [])).flatten

/-- Python `\w` (ASCII): letters, digits, underscore. -/
def isWordChar (c : Char) : Bool := c.isAlpha ∨ c.isDigit ∨ c = '_'

/-- Word-character test lifted to an optional character (`none` = outside the string). -/
def wOpt : Option Char → Bool
  | some c => isWordChar c
  | none => false

/-- `\b`: a word boundary between two (optional) adjacent characters. -/
def boundaryAt (a b : Option Char) : Bool := xor (wOpt a) (wOpt b)

/-- The last character of the match, or the previous character when the match is empty. -/
def lastOr (m : List Char) (prev : Option Char) : Option Char :=
  match m.getLast? with
  | some c => some c
  | none => prev

/-- First outcome whose trailing `\b` holds, in preference order. -/
def firstGood (prev : Option Char) : List (List Char × List Char) → Option (List Char)
  | [] => none
  | (m, r) :: rest =>
    if boundaryAt (lastOr m prev) r.head? then some m else firstGood prev rest

/-- Match `\b toks \b` anchored at the current position (`prev` is the character
just before the position). -/
def matchAt (ts : List Tok) (prev : Option Char) (cs : List Char) : Option (List Char) :=
  if boundaryAt prev cs.head? then firstGood prev (matchToksAll ts cs) else none

/-- Leftmost match scan (the semantics of `re.findall(...)[0]`). -/
def firstMatchAux (ts : List Tok) : Option Char → List Char → Option (List Char)
  | prev, [] => matchAt ts prev []
  | prev, c :: cs =>
    match matchAt ts prev (c :: cs) with
    | some m => some m
    | none => firstMatchAux ts (some c) cs

/-- The first (leftmost) match of a pattern in the content, original casing. -/
def firstMatch (ts : List Tok) (cs : List Char) : Option (List Char) :=
  firstMatchAux ts none cs

/-- The fixed catalog of 19 technology patterns, in source order. -/
def tech_patterns : List (List Tok) :=
  [ [Tok.lit "Azure".data, Tok.ws, Tok.lit "OpenAI".data],
    [Tok.lit "GPT-4".data, Tok.alts ["o".data, "".data]],
    [Tok.lit "Foundry".data],
    [Tok.lit "prompt".data, Tok.ws, Tok.lit "flow".data],
    [Tok.lit "RAG".data],
    [Tok.lit "Retrieval".data, Tok.ws, Tok.lit "Augmented".data, Tok.ws, Tok.lit "Generation".data],
    [Tok.lit "Azure".data, Tok.ws, Tok.lit "AI".data, Tok.ws,
      Tok.alts ["Services".data, "Studio".data, "Foundry".data]],
    [Tok.lit "AI".data, Tok.ws, Tok.lit "hub".data],
    [Tok.lit "Python".data, Tok.ws, Tok.lit "SDK".data],
    [Tok.lit "TypeScript".data],
    [Tok.lit ".NET".data],
    [Tok.lit "fine-tun".data, Tok.alts ["e".data, "ing".data]],
    [Tok.lit "content".data, Tok.ws, Tok.lit "filter".data, Tok.alts ["s".data, "ing".data, "".data]],
    [Tok.lit "evaluation".data],
    [Tok.lit "embedding".data],
    [Tok.lit "model".data, Tok.ws, Tok.lit "catalog".data],
    [Tok.lit "chat".data, Tok.ws, Tok.alts ["app".data, "playground".data]],
    [Tok.lit "NER".data],
    [Tok.lit "Named".data, Tok.ws, Tok.lit "Entity".data, Tok.ws, Tok.lit "Recognition".data] ]

/-- `set.add(matches[0].strip())` modelled as order-preserving insertion with
exact-string deduplication. -/
def addLabel (acc : List (List Char)) (l : List Char) : List (List Char) :=
  if l ∈ acc then acc else acc ++ [l]

/-- The deduplicated labels collected over the pattern catalog, in catalog order. -/
def techLabels (cs : List Char) : List (List Char) :=
  tech_patterns.foldl (fun acc p =>
    match firstMatch p cs with
    | some m => addLabel acc (trimChars m)
    | none => acc) []

/-- `extract_technologies(content)`: `", "`-joined case-insensitively sorted
labels, or the sentinel. -/
def extract_technologies (content : String) : String :=
  match techLabels content.data with
  | [] => "N/A"
  | labels => String.mk (List.intercalate [',', ' '] (sortLe leCI labels))

/-! ## Provenance Lookup (`get_git_info`) -/

/-- The outcome of one `subprocess.run` of `git log`: an exception, or a return
code with captured standard output. -/
abbrev GitQuery := Except Unit (Int × String)

/-- The oracle for both queries run for one path: the merge-restricted query
and the unrestricted query. -/
abbrev GitOracle := String → GitQuery × GitQuery

/-- Is 29 February valid in this year (Gregorian rule, as `datetime` uses)? -/
def isLeap (y : Nat) : Bool := (y % 4 = 0 ∧ ¬ y % 100 = 0) ∨ y % 400 = 0

/-- Days in a month, used by `datetime.strptime` validation. -/
def daysIn (y m : Nat) : Nat :=
  if m = 2 then (if isLeap y then 29 else 28)
  else if m = 4 ∨ m = 6 ∨ m = 9 ∨ m = 11 then 30 else 31

/-- ASCII digit test. -/
def isDigitC (c : Char) : Bool := '0' ≤ c ∧ c ≤ '9'

/-- Numeric value of a digit string. -/
def natOfDigits (s : List Char) : Nat := s.foldl (fun a c => a * 10 + (c.toNat - 48)) 0

/-- `datetime.strptime(tok, '%Y-%m-%d')`: `none` models the `ValueError`. -/
def parseYMD (s : List Char) : Option (Nat × Nat × Nat) :=
  match splitOnC '-' s with
  | [ys, ms, ds] =>
    if ys ≠ [] ∧ ys.length ≤ 4 ∧ ys.all isDigitC ∧
        ms ≠ [] ∧ ms.length ≤ 2 ∧ ms.all isDigitC ∧
        ds ≠ [] ∧ ds.length ≤ 2 ∧ ds.all isDigitC then
      if 1 ≤ natOfDigits ys ∧ 1 ≤ natOfDigits ms ∧ natOfDigits ms ≤ 12 ∧
          1 ≤ natOfDigits ds ∧ natOfDigits ds ≤ daysIn (natOfDigits ys) (natOfDigits ms) then
        some (natOfDigits ys, natOfDigits ms, natOfDigits ds)
      else none
    else none
  | _ => none

/-- Zero-padded two-digit rendering (`%m`, `%d`). -/
def pad2 (n : Nat) : List Char := if n < 10 then '0' :: Nat.toDigits 10 n else Nat.toDigits 10 n

/-- `date_obj.strftime('%Y-%m-%d')`. -/
def formatYMD (x : Nat × Nat × Nat) : List Char :=
  Nat.toDigits 10 x.1 ++ '-' :: (pad2 x.2.1 ++ '-' :: pad2 x.2.2)

/-- Date-and-author processing of a two-part line: `date_str.split()[0]` (an
`IndexError`, modelled by `Except.error`, when there is no token), then
`strptime`/`strftime` ( a `ValueError`, also `Except.error`, on parse failure). -/
def parseGitDate (ds au : List Char) : Except Unit (Option (String × String)) :=
  match firstTok ds with
  | none => .error ()
  | some tok =>
    match parseYMD tok with
    | none => .error ()
    | some ymd => .ok (some (String.mk (formatYMD ymd), String.mk au))

/-- `parts = stdout.strip().split('|'); if len(parts) == 2: ...`: anything other
than exactly two parts falls through. -/
def parseGitParts : List (List Char) → Except Unit (Option (String × String))
  | [ds, au] => parseGitDate ds au
  | _ => .ok none

/-- Processing of one completed `git log` query, exactly as `get_git_info` does:
check return code and non-empty stripped output, split on `'|'` into exactly
two parts, take the first whitespace token of the date part and parse it.
`Except.error` models a raised exception (tool failure, `IndexError`, or
`ValueError` from `strptime`); `Except.ok none` means "fall through". -/
def tryQueryStep (q : GitQuery) : Except Unit (Option (String × String)) :=
  match q with
  | .error e => .error e
  | .ok (rc, out) =>
    if rc = 0 ∧ trimChars out.data ≠ [] then
      parseGitParts (splitOnC '|' (trimChars out.data))
    else .ok none

/-- `get_git_info`: merge-restricted query first, unrestricted query second,
any exception collapsing to the sentinel pair. -/
def get_git_info (q1 q2 : GitQuery) : String × String :=
  match tryQueryStep q1 with
  | .error _ => ("N/A", "N/A")
  | .ok (some r) => r
  | .ok none =>
    match tryQueryStep q2 with
    | .error _ => ("N/A", "N/A")
    | .ok (some r) => r
    | .ok none => ("N/A", "N/A")

/-- The processing a single query receives when it is the one that decides the
result (the unrestricted query's handling in `get_git_info`). -/
def lookupSingle (q : GitQuery) : String × String :=
  match tryQueryStep q with
  | .ok (some r) => r
  | _ => ("N/A", "N/A")

/-! ## Catalog Assembler (`process_lab_files`, `generate_csv`) -/

/-- One output record (`labs.append({...})` in the source). -/
structure LabRecord where
  filename : String
  description : String
  technologies : String
  last_merge_date : String
  last_merge_author : String
deriving DecidableEq

/-- The combination rule for the description field:
`f"{title}. {description}" if title and description else (description or title or "N/A")`. -/
def combineDesc (td : String × String) : String :=
  if td.1 ≠ "" ∧ td.2 ≠ "" then td.1 ++ ". " ++ td.2
  else if td.2 ≠ "" then td.2
  else if td.1 ≠ "" then td.1
  else "N/A"

/-- Assemble the record for one readable file. -/
def mkRecord (path : String) (content : String) (gq : GitQuery × GitQuery) : LabRecord :=
  { filename := path
    description := combineDesc (parse_frontmatter content)
    technologies := extract_technologies content
    last_merge_date := (get_git_info gq.1 gq.2).1
    last_merge_author := (get_git_info gq.1 gq.2).2 }

/-- String (path) order, the order `sorted(md_files)` uses. -/
def pathLe (a b : String) : Bool := listLe a.data b.data

/-- An enumerated file: its path (relative to the scan directory) and its
content, `none` modelling a read failure. -/
abbrev MDFile := String × Option String

/-- `sorted(instructions_path.rglob('*.md'))`. -/
def sortByPath (files : List MDFile) : List MDFile :=
  sortLe (fun f g => pathLe f.1 g.1) files

/-- The warning printed when reading a file raises. -/
def warnLine (p : String) : String := "Error processing " ++ p

/-- `process_lab_files`: sort the enumeration, then one pass appending a record
per readable file and a warning per unreadable file. -/
def process_lab_files (files : List MDFile) (oracle : GitOracle) :
    List LabRecord × List String :=
  (sortByPath files).foldl (fun st f =>
    match f.2 with
    | some content => (st.1 ++ [mkRecord f.1 content (oracle f.1)], st.2)
    | none => (st.1, st.2 ++ [warnLine f.1])) ([], [])

/-- Does the csv module's default dialect quote this field (QUOTE_MINIMAL)? -/
def csvNeedsQuote (s : List Char) : Bool :=
  s.any (fun c => c = ',' ∨ c = '"' ∨ c = '\r' ∨ c = '\n')

/-- Double every quote character (the default escaping). -/
def csvEscape (s : List Char) : List Char :=
  s.foldr (fun c acc => if c = '"' then '"' :: '"' :: acc else c :: acc) []

/-- Render one field with minimal quoting. -/
def csvField (s : List Char) : List Char :=
  if csvNeedsQuote s then '"' :: (csvEscape s ++ ['"']) else s

/-- Render one row: comma-joined fields terminated by the default `\r\n`. -/
def csvLine (fs : List (List Char)) : List Char :=
  List.intercalate [','] (fs.map csvField) ++ ['\r', '\n']

/-- The `fieldnames` list of `generate_csv`. -/
def headerFields : List (List Char) :=
  ["filename".data, "description".data, "technologies".data,
    "last_merge_date".data, "last_merge_author".data]

/-- The field values of a record in `fieldnames` order. -/
def recordFields (r : LabRecord) : List (List Char) :=
  [r.filename.data, r.description.data, r.technologies.data,
    r.last_merge_date.data, r.last_merge_author.data]

/-- `generate_csv`: header row then one row per record. -/
def generate_csv (labs : List LabRecord) : String :=
  String.mk (csvLine headerFields ++ (labs.map (fun r => csvLine (recordFields r))).flatten)

/-- The whole run: records from the enumerated files and the oracle, serialized. -/
def run_catalog (files : List MDFile) (oracle : GitOracle) : String :=
  generate_csv (process_lab_files files oracle).1

/-! ## Specification predicates -/

/-- The records the single pass produces, in order: one per readable file. -/
def recsOf (oracle : GitOracle) (l : List MDFile) : List LabRecord :=
  (l.filter (fun f => f.2.isSome)).map (fun f => mkRecord f.1 (f.2.getD "") (oracle f.1))

/-- The warnings the single pass produces, in order: one per unreadable file. -/
def warnsOf (l : List MDFile) : List String :=
  (l.filter (fun f => f.2.isNone)).map (fun f => warnLine f.1)

/-- A matched piece for one pattern token: a case-insensitive copy of a literal,
a nonempty whitespace run, or a case-insensitive copy of one alternative. -/
inductive TokMatch : Tok → List Char → Prop where
  | lit : ∀ s m, m.map lowerChar = s.map lowerChar → TokMatch (Tok.lit s) m
  | ws : ∀ m, m ≠ [] → (∀ c ∈ m, pyWS c = true) → TokMatch Tok.ws m
  | alts : ∀ alist m a, a ∈ alist → m.map lowerChar = a.map lowerChar →
      TokMatch (Tok.alts alist) m

/-- A matched string decomposes into pieces matching the pattern tokens in order:
this is what "the document text matches the pattern case-insensitively" means. -/
inductive SeqMatch : List Tok → List Char → Prop where
  | nil : SeqMatch [] []
  | cons : ∀ t ts m1 m2, TokMatch t m1 → SeqMatch ts m2 → SeqMatch (t :: ts) (m1 ++ m2)

/-- The failure modes of one history query, as the spec enumerates them: a raised
exception (no repository / tool absent), a non-zero exit, empty output, output
without exactly one `'|'`, or an unparseable date token. -/
def queryFailModes (q : GitQuery) : Prop :=
  q = .error () ∨
    ∃ rc out, q = .ok (rc, out) ∧
      (¬ rc = 0 ∨ trimChars out.data = [] ∨
        ¬ (splitOnC '|' (trimChars out.data)).length = 2 ∨
        ∃ ds au, splitOnC '|' (trimChars out.data) = [ds, au] ∧
          (firstTok ds = none ∨ ∃ tk, firstTok ds = some tk ∧ parseYMD tk = none))

/-! ## Order and sorting lemmas -/

/-- The lexicographic comparison is total. -/
theorem listLe_total (a b : List Char) : listLe a b = true ∨ listLe b a = true := by
  induction a generalizing b with
  | nil => left; rfl
  | cons x xs ih =>
    cases b with
    | nil => right; rfl
    | cons y ys =>
      rcases lt_trichotomy x y with h | h | h
      · left; simp [listLe, h]
      · subst h
        rcases ih ys with h2 | h2
        · left; simp [listLe, lt_irrefl, h2]
        · right; simp [listLe, lt_irrefl, h2]
      · right; simp [listLe, h]

/-- The lexicographic comparison is transitive. -/
theorem listLe_trans : ∀ {a b c : List Char},
    listLe a b = true → listLe b c = true → listLe a c = true := by
  intro a
  induction a with
  | nil => intro b c _ _; rfl
  | cons x xs ih =>
    intro b c hab hbc
    cases b with
    | nil => simp [listLe] at hab
    | cons y ys =>
      cases c with
      | nil => simp [listLe] at hbc
      | cons z zs =>
        rcases lt_trichotomy x y with hxy | hxy | hxy
        · rcases lt_trichotomy y z with hyz | hyz | hyz
          · simp [listLe, lt_trans hxy hyz]
          · subst hyz; simp [listLe, hxy]
          · simp [listLe, hyz, lt_asymm hyz] at hbc
        · subst hxy
          rcases lt_trichotomy x z with hyz | hyz | hyz
          · simp [listLe, hyz]
          · subst hyz
            simp only [listLe, lt_irrefl, if_false] at hab hbc ⊢
            exact ih hab hbc
          · simp [listLe, hyz, lt_asymm hyz] at hbc
        · simp [listLe, hxy, lt_asymm hxy] at hab

/-- The lexicographic comparison is antisymmetric. -/
theorem listLe_antisymm : ∀ {a b : List Char},
    listLe a b = true → listLe b a = true → a = b := by
  intro a
  induction a with
  | nil =>
    intro b _ hba
    cases b with
    | nil => rfl
    | cons y ys => simp [listLe] at hba
  | cons x xs ih =>
    intro b hab hba
    cases b with
    | nil => simp [listLe] at hab
    | cons y ys =>
      rcases lt_trichotomy x y with h | h | h
      · simp [listLe, h, lt_asymm h] at hba
      · subst h
        simp only [listLe, lt_irrefl, if_false] at hab hba
        exact congrArg (x :: ·) (ih hab hba)
      · simp [listLe, h, lt_asymm h] at hab

/-- Two strings with equal character data are equal. -/
theorem stringDataEq {s t : String} (h : s.data = t.data) : s = t := by
  cases s; cases t; exact congrArg String.mk h

/-- Path order is antisymmetric. -/
theorem pathLe_antisymm {a b : String} (h1 : pathLe a b = true) (h2 : pathLe b a = true) :
    a = b :=
  stringDataEq (listLe_antisymm h1 h2)

/-- Inserting permutes to consing. -/
theorem insertLe_perm (le : α → α → Bool) (x : α) (l : List α) :
    (insertLe le x l).Perm (x :: l) := by
  induction l with
  | nil => exact List.Perm.refl _
  | cons y ys ih =>
    by_cases h : le x y
    · simp [insertLe, h]
    · simp only [insertLe, h, if_false]
      exact (ih.cons y).trans (List.Perm.swap x y ys)

/-- Sorting permutes the input. -/
theorem sortLe_perm (le : α → α → Bool) (l : List α) : (sortLe le l).Perm l := by
  induction l with
  | nil => exact List.Perm.refl _
  | cons x xs ih => exact (insertLe_perm le x (sortLe le xs)).trans (ih.cons x)

/-- Inserting into a sorted list keeps it sorted, for a total transitive comparison. -/
theorem insertLe_pairwise (le : α → α → Bool)
    (htot : ∀ a b, le a b = true ∨ le b a = true)
    (htrans : ∀ a b c, le a b = true → le b c = true → le a c = true)
    (x : α) (l : List α) (h : l.Pairwise (fun a b => le a b = true)) :
    (insertLe le x l).Pairwise (fun a b => le a b = true) := by
  induction l with
  | nil => simp [insertLe]
  | cons y ys ih =>
    rcases List.pairwise_cons.mp h with ⟨hy, hys⟩
    by_cases hxy : le x y = true
    · simp only [insertLe, hxy, if_true]
      refine List.pairwise_cons.mpr ⟨?_, h⟩
      intro z hz
      rcases List.mem_cons.mp hz with rfl | hz
      · exact hxy
      · exact htrans x y z hxy (hy z hz)
    · have hyx : le y x = true := (htot x y).resolve_left hxy
      have hcoe : ¬ (le x y : Prop) := by simpa using hxy
      simp only [insertLe, hcoe, if_false]
      refine List.pairwise_cons.mpr ⟨?_, ih hys⟩
      intro z hz
      have hz' : z ∈ x :: ys := (insertLe_perm le x ys).mem_iff.mp hz
      rcases List.mem_cons.mp hz' with rfl | hz'
      · exact hyx
      · exact hy z hz'

/-- The sort output is sorted, for a total transitive comparison. -/
theorem sortLe_pairwise (le : α → α → Bool)
    (htot : ∀ a b, le a b = true ∨ le b a = true)
    (htrans : ∀ a b c, le a b = true → le b c = true → le a c = true)
    (l : List α) : (sortLe le l).Pairwise (fun a b => le a b = true) := by
  induction l with
  | nil => simp [sortLe]
  | cons x xs ih => exact insertLe_pairwise le htot htrans x (sortLe le xs) ih

/-- Two sorted permutations of each other with duplicate-free path keys are equal. -/
theorem sorted_perm_eq :
    ∀ (l1 l2 : List MDFile), l1.Perm l2 →
      l1.Pairwise (fun f g => pathLe f.1 g.1 = true) →
      l2.Pairwise (fun f g => pathLe f.1 g.1 = true) →
      (l1.map Prod.fst).Nodup → l1 = l2 := by
  intro l1
  induction l1 with
  | nil =>
    intro l2 hp _ _ _
    exact (hp.symm.eq_nil).symm
  | cons x t1 ih =>
    intro l2 hp hs1 hs2 hnd
    cases l2 with
    | nil => exact absurd hp.eq_nil (by simp)
    | cons y t2 =>
      rcases List.pairwise_cons.mp hs1 with ⟨hx1, hs1'⟩
      rcases List.pairwise_cons.mp hs2 with ⟨hy2, hs2'⟩
      have hxy : x = y := by
        by_cases hxy : x = y
        · exact hxy
        · have hxmem : x ∈ y :: t2 := hp.mem_iff.mp (List.mem_cons_self x t1)
          have hymem : y ∈ x :: t1 := hp.mem_iff.mpr (List.mem_cons_self y t2)
          have hx2 : x ∈ t2 := (List.mem_cons.mp hxmem).resolve_left hxy
          have hy1 : y ∈ t1 := (List.mem_cons.mp hymem).resolve_left (fun h => hxy h.symm)
          have h1 : pathLe x.1 y.1 = true := hx1 y hy1
          have h2 : pathLe y.1 x.1 = true := hy2 x hx2
          have hkey : x.1 = y.1 := pathLe_antisymm h1 h2
          rcases List.nodup_cons.mp hnd with ⟨hnotin, _⟩
          exact absurd (hkey ▸ List.mem_map_of_mem Prod.fst hy1) hnotin
      subst hxy
      have ht : t1 = t2 :=
        ih t2 hp.cons_inv hs1' hs2' (List.nodup_cons.mp hnd).2
      rw [ht]

/-- Path order is total. -/
theorem pathLe_total (a b : String) : pathLe a b = true ∨ pathLe b a = true :=
  listLe_total a.data b.data

/-- Path order is transitive. -/
theorem pathLe_trans {a b c : String} (h1 : pathLe a b = true) (h2 : pathLe b c = true) :
    pathLe a c = true :=
  listLe_trans h1 h2

/-! ## Assembler lemmas -/

/-- The fold of `process_lab_files` appends one record per readable file and one
warning per unreadable file, in order. -/
theorem process_foldl (oracle : GitOracle) :
    ∀ (l : List MDFile) (a : List LabRecord) (w : List String),
      l.foldl (fun st f =>
        match f.2 with
        | some content => (st.1 ++ [mkRecord f.1 content (oracle f.1)], st.2)
        | none => (st.1, st.2 ++ [warnLine f.1])) (a, w)
      = (a ++ recsOf oracle l, w ++ warnsOf l) := by
  intro l
  induction l with
  | nil => intro a w; simp [recsOf, warnsOf]
  | cons f l ih =>
    intro a w
    obtain ⟨p, oc⟩ := f
    cases oc with
    | some content =>
      simp only [List.foldl_cons]
      rw [ih]
      simp [recsOf, warnsOf, List.filter_cons]
    | none =>
      simp only [List.foldl_cons]
      rw [ih]
      simp [recsOf, warnsOf, List.filter_cons]

/-- `process_lab_files` in closed form. -/
theorem process_spec (files : List MDFile) (oracle : GitOracle) :
    process_lab_files files oracle
      = (recsOf oracle (sortByPath files), warnsOf (sortByPath files)) := by
  unfold process_lab_files
  simpa using process_foldl oracle (sortByPath files) [] []

/-- Readable and unreadable files partition the enumeration. -/
theorem filter_some_none_length : ∀ (l : List MDFile),
    (l.filter (fun f => f.2.isSome)).length + (l.filter (fun f => f.2.isNone)).length
      = l.length := by
  intro l
  induction l with
  | nil => rfl
  | cons f l ih =>
    cases h : f.2 <;> simp [List.filter_cons, h] <;> omega

/-- C1: every enumerated markdown file that is read successfully yields exactly one
record (extraction and provenance failures only degrade fields, they cannot drop the
row), every unreadable file yields zero records and one logged warning, and
output rows + skipped files = enumerated files. -/
theorem claim_C1 : ∀ (files : List MDFile) (oracle : GitOracle),
    (process_lab_files files oracle).1.length
        + (files.filter (fun f => f.2.isNone)).length = files.length
    ∧ (process_lab_files files oracle).1 = recsOf oracle (sortByPath files)
    ∧ (process_lab_files files oracle).2 = warnsOf (sortByPath files) := by
  intro files oracle
  have hspec := process_spec files oracle
  have hperm : (sortByPath files).Perm files := sortLe_perm _ files
  refine ⟨?_, by rw [hspec], by rw [hspec]⟩
  rw [hspec]
  have h1 : (recsOf oracle (sortByPath files)).length
      = ((sortByPath files).filter (fun f => f.2.isSome)).length := by
    simp [recsOf]
  have h2 : (files.filter (fun f => f.2.isNone)).length
      = ((sortByPath files).filter (fun f => f.2.isNone)).length :=
    (List.Perm.length_eq (hperm.filter _)).symm
  rw [h1, h2, filter_some_none_length (sortByPath files)]
  exact hperm.length_eq

/-- C8: the rows appear in sorted-path order of the enumerated files (restricted to
the readable ones), and the filename column is sorted under path order. -/
theorem claim_C8 : ∀ (files : List MDFile) (oracle : GitOracle),
    (process_lab_files files oracle).1.map (fun r => r.filename)
        = ((sortByPath files).filter (fun f => f.2.isSome)).map Prod.fst
    ∧ ((process_lab_files files oracle).1.map (fun r => r.filename)).Pairwise
        (fun a b => pathLe a b = true) := by
  intro files oracle
  have hspec := process_spec files oracle
  have hmap : (process_lab_files files oracle).1.map (fun r => r.filename)
      = ((sortByPath files).filter (fun f => f.2.isSome)).map Prod.fst := by
    rw [hspec]
    simp [recsOf, List.map_map]
    intro a b _ _
    rfl
  refine ⟨hmap, ?_⟩
  rw [hmap]
  have hsorted : (sortByPath files).Pairwise (fun f g => pathLe f.1 g.1 = true) :=
    sortLe_pairwise _ (fun f g => pathLe_total f.1 g.1)
      (fun f g k hfg hgh => @pathLe_trans f.1 g.1 k.1 hfg hgh) files
  exact (hsorted.filter _).map Prod.fst (fun f g h => h)

/-- C9: two runs over the same set of enumerated files (any listing order) with the
same history oracle produce byte-identical output. -/
theorem claim_C9 : ∀ (files1 files2 : List MDFile) (oracle : GitOracle),
    files1.Perm files2 → (files1.map Prod.fst).Nodup →
    run_catalog files1 oracle = run_catalog files2 oracle := by
  intro f1 f2 oracle hperm hnd
  have hs1 : (sortByPath f1).Pairwise (fun f g => pathLe f.1 g.1 = true) :=
    sortLe_pairwise _ (fun f g => pathLe_total f.1 g.1)
      (fun f g k hfg hgh => @pathLe_trans f.1 g.1 k.1 hfg hgh) f1
  have hs2 : (sortByPath f2).Pairwise (fun f g => pathLe f.1 g.1 = true) :=
    sortLe_pairwise _ (fun f g => pathLe_total f.1 g.1)
      (fun f g k hfg hgh => @pathLe_trans f.1 g.1 k.1 hfg hgh) f2
  have hp : (sortByPath f1).Perm (sortByPath f2) :=
    (sortLe_perm _ f1).trans (hperm.trans (sortLe_perm _ f2).symm)
  have hnd1 : ((sortByPath f1).map Prod.fst).Nodup :=
    (((sortLe_perm _ f1).map Prod.fst).symm).nodup hnd
  have heq : sortByPath f1 = sortByPath f2 := sorted_perm_eq _ _ hp hs1 hs2 hnd1
  unfold run_catalog
  rw [process_spec, process_spec, heq]

/-- C9 witness: a concrete pair of permuted listings with duplicate-free paths. -/
theorem claim_C9_witness :
    (([("b.md", some "x"), ("a.md", none)] : List MDFile)).Perm
        [("a.md", none), ("b.md", some "x")]
    ∧ ((([("b.md", some "x"), ("a.md", none)] : List MDFile)).map Prod.fst).Nodup
    ∧ run_catalog [("b.md", some "x"), ("a.md", none)] (fun _ => (.error (), .error ()))
        = run_catalog [("a.md", none), ("b.md", some "x")] (fun _ => (.error (), .error ())) :=
  ⟨List.Perm.swap ("a.md", none) ("b.md", some "x") [], by decide,
    claim_C9 _ _ _ (List.Perm.swap ("a.md", none) ("b.md", some "x") []) (by decide)⟩

/-- C2 (as stated) is false: the header the code writes says `last_merge_date` and
`last_merge_author`, not `last_change_date` / `last_change_author`. On an empty
record list the output consists of the header row alone, and even its full
69-character content differs from the claimed header text. -/
theorem claim_C2_cx :
    (generate_csv []).data
        = "filename,description,technologies,last_merge_date,last_merge_author\r\n".data
    ∧ (generate_csv []).data.take 69
        ≠ "filename,description,technologies,last_change_date,last_change_author".data := by
  exact ⟨by decide, by decide⟩

/-- C2 (amended): the output always begins with the exact header row
`filename,description,technologies,last_merge_date,last_merge_author`, followed by
one row per record rendered with the csv module's minimal quoting (fields containing
a comma, quote, or line break are quoted, embedded quotes doubled). -/
theorem claim_C2_amended : ∀ labs : List LabRecord,
    (generate_csv labs).data
      = "filename,description,technologies,last_merge_date,last_merge_author\r\n".data
        ++ (labs.map (fun r => csvLine (recordFields r))).flatten := by
  intro labs
  have h : csvLine headerFields
      = "filename,description,technologies,last_merge_date,last_merge_author\r\n".data := by
    decide
  show csvLine headerFields ++ (labs.map (fun r => csvLine (recordFields r))).flatten = _
  rw [h]

/-! ## Provenance lookup lemmas -/

/-- Splitting the empty list yields one empty piece. -/
theorem splitOnC_nil (sep : Char) : splitOnC sep [] = [[]] := rfl

/-- Reduction of `tryQueryStep` for a zero exit code and non-empty stripped output. -/
theorem tryQueryStep_ok_reduce (rc : Int) (out : String) (hrc : rc = 0)
    (htrim : trimChars out.data ≠ []) :
    tryQueryStep (.ok (rc, out)) = parseGitParts (splitOnC '|' (trimChars out.data)) := by
  subst hrc
  simp [tryQueryStep, htrim]

/-- Reduction of `tryQueryStep` when the exit code is non-zero or output is empty. -/
theorem tryQueryStep_ok_skip (rc : Int) (out : String)
    (h : ¬ rc = 0 ∨ trimChars out.data = []) :
    tryQueryStep (.ok (rc, out)) = .ok none := by
  have hc : ¬ (rc = 0 ∧ trimChars out.data ≠ []) := by
    rcases h with h | h
    · exact fun hc => h hc.1
    · exact fun hc => hc.2 h
  simp [tryQueryStep, hc]

/-- A list without exactly two parts falls through. -/
theorem parseGitParts_skip (l : List (List Char)) (h : ¬ l.length = 2) :
    parseGitParts l = .ok none := by
  rcases l with _ | ⟨x, _ | ⟨y, _ | _⟩⟩ <;> simp_all [parseGitParts]

/-- A soft failure of a completed query: non-zero exit, empty stripped output, or
output that does not split into exactly two parts. -/
theorem step_soft (rc : Int) (out : String)
    (h : ¬ rc = 0 ∨ trimChars out.data = [] ∨
      ¬ (splitOnC '|' (trimChars out.data)).length = 2) :
    tryQueryStep (.ok (rc, out)) = .ok none := by
  by_cases hrc : rc = 0
  · by_cases htrim : trimChars out.data = []
    · exact tryQueryStep_ok_skip rc out (Or.inr htrim)
    · have hlen : ¬ (splitOnC '|' (trimChars out.data)).length = 2 := by
        rcases h with h | h | h
        · exact absurd hrc h
        · exact absurd h htrim
        · exact h
      rw [tryQueryStep_ok_reduce rc out hrc htrim]
      exact parseGitParts_skip _ hlen
  · exact tryQueryStep_ok_skip rc out (Or.inl hrc)

/-- A completed query with two parts and a parseable first date token produces the
normalized date and the author. -/
theorem step_ok_parse (out : String) (ds au tk : List Char) (ymd : Nat × Nat × Nat)
    (hsplit : splitOnC '|' (trimChars out.data) = [ds, au])
    (htok : firstTok ds = some tk) (hdate : parseYMD tk = some ymd) :
    tryQueryStep (.ok (0, out)) = .ok (some (String.mk (formatYMD ymd), String.mk au)) := by
  have htrim : trimChars out.data ≠ [] := by
    intro h0
    rw [h0, splitOnC_nil] at hsplit
    simp at hsplit
  rw [tryQueryStep_ok_reduce 0 out rfl htrim, hsplit]
  simp [parseGitParts, parseGitDate, htok, hdate]

/-- A completed query with two parts and an unusable date part raises. -/
theorem step_ok_badparse (out : String) (ds au : List Char)
    (hsplit : splitOnC '|' (trimChars out.data) = [ds, au])
    (hbad : firstTok ds = none ∨ ∃ tk, firstTok ds = some tk ∧ parseYMD tk = none) :
    tryQueryStep (.ok (0, out)) = .error () := by
  have htrim : trimChars out.data ≠ [] := by
    intro h0
    rw [h0, splitOnC_nil] at hsplit
    simp at hsplit
  rw [tryQueryStep_ok_reduce 0 out rfl htrim, hsplit]
  rcases hbad with htok | ⟨tk, htok, hdate⟩
  · simp [parseGitParts, parseGitDate, htok]
  · simp [parseGitParts, parseGitDate, htok, hdate]

/-- A query in a spec failure mode either raises or falls through. -/
theorem failModes_step (q : GitQuery) (h : queryFailModes q) :
    tryQueryStep q = .error () ∨ tryQueryStep q = .ok none := by
  rcases h with rfl | ⟨rc, out, rfl, hcase⟩
  · left; rfl
  · rcases hcase with hrc | htrim | hlen | ⟨ds, au, hsplit, hbad⟩
    · right; exact step_soft rc out (Or.inl hrc)
    · right; exact step_soft rc out (Or.inr (Or.inl htrim))
    · right; exact step_soft rc out (Or.inr (Or.inr hlen))
    · by_cases hrc : rc = 0
      · subst hrc
        left
        exact step_ok_badparse out ds au hsplit hbad
      · right; exact step_soft rc out (Or.inl hrc)

/-- A produced result always carries a normalized formatted date. -/
theorem step_shape (q : GitQuery) (r : String × String)
    (h : tryQueryStep q = .ok (some r)) :
    ∃ ymd au, r = (String.mk (formatYMD ymd), String.mk au) := by
  cases q with
  | error e => simp [tryQueryStep] at h
  | ok pr =>
    obtain ⟨rc, out⟩ := pr
    by_cases hrc : rc = 0
    · by_cases htrim : trimChars out.data = []
      · rw [tryQueryStep_ok_skip rc out (Or.inr htrim)] at h
        simp at h
      · rw [tryQueryStep_ok_reduce rc out hrc htrim] at h
        rcases hl : splitOnC '|' (trimChars out.data) with _ | ⟨x, _ | ⟨y, _ | _⟩⟩ <;>
          rw [hl] at h <;> simp only [parseGitParts] at h
        · simp at h
        · simp at h
        · rcases ht : firstTok x with _ | tk <;>
            simp only [parseGitDate, ht] at h
          · simp at h
          · rcases hd : parseYMD tk with _ | ymd <;> simp only [hd] at h
            · simp at h
            · simp at h
              exact ⟨ymd, y, h.symm⟩
        · simp at h
    · rw [tryQueryStep_ok_skip rc out (Or.inl hrc)] at h
      simp at h

/-- When the first query falls through, the call is decided by the second query. -/
theorem ggi_of_step1_none {q1 : GitQuery} (q2 : GitQuery)
    (h : tryQueryStep q1 = .ok none) :
    get_git_info q1 q2 = lookupSingle q2 := by
  rcases h2 : tryQueryStep q2 with e | o
  · simp [get_git_info, lookupSingle, h, h2]
  · cases o <;> simp [get_git_info, lookupSingle, h, h2]

/-- C6: the Provenance Lookup never propagates an exception (it is a total function
of the two query outcomes), and whenever both queries are in a failure mode — raised
exception, non-zero exit, empty output, wrong-arity output, or unparseable date —
the result is exactly the sentinel pair; moreover every non-sentinel result carries
a normalized formatted date. -/
theorem claim_C6 :
    (∀ q1 q2 : GitQuery, queryFailModes q1 → queryFailModes q2 →
      get_git_info q1 q2 = ("N/A", "N/A"))
    ∧ ∀ q1 q2 : GitQuery, get_git_info q1 q2 = ("N/A", "N/A")
        ∨ ∃ ymd au, get_git_info q1 q2 = (String.mk (formatYMD ymd), String.mk au) := by
  constructor
  · intro q1 q2 h1 h2
    rcases failModes_step q1 h1 with ha | ha <;> rcases failModes_step q2 h2 with hb | hb <;>
      simp [get_git_info, ha, hb]
  · intro q1 q2
    rcases h1 : tryQueryStep q1 with e | o1
    · left; simp [get_git_info, h1]
    · cases o1 with
      | some r =>
        right
        obtain ⟨ymd, au, rfl⟩ := step_shape q1 r h1
        exact ⟨ymd, au, by simp [get_git_info, h1]⟩
      | none =>
        rcases h2 : tryQueryStep q2 with e | o2
        · left; simp [get_git_info, h1, h2]
        · cases o2 with
          | some r =>
            right
            obtain ⟨ymd, au, rfl⟩ := step_shape q2 r h2
            exact ⟨ymd, au, by simp [get_git_info, h1, h2]⟩
          | none => left; simp [get_git_info, h1, h2]

/-- C6 witness: a non-zero exit for the merge query and a raised exception for the
unrestricted query produce the sentinel pair. -/
theorem claim_C6_witness :
    queryFailModes (.ok (1, "x")) ∧ queryFailModes (.error ())
    ∧ get_git_info (.ok (1, "x")) (.error ()) = ("N/A", "N/A") :=
  ⟨Or.inr ⟨1, "x", rfl, Or.inl (by decide)⟩, Or.inl rfl,
    claim_C6.1 _ _ (Or.inr ⟨1, "x", rfl, Or.inl (by decide)⟩) (Or.inl rfl)⟩

/-- C7 (as stated) is false for the "tool absent" case: when the merge-restricted
query raises, the code catches the exception and returns the sentinel pair without
repeating the query, even though the unrestricted query would have produced a
result. -/
theorem claim_C7_cx :
    get_git_info (.error ()) (.ok (0, "2024-01-02 10:00:00 +0000|Alice")) = ("N/A", "N/A")
    ∧ lookupSingle (.ok (0, "2024-01-02 10:00:00 +0000|Alice")) = ("2024-01-02", "Alice")
    ∧ (("N/A", "N/A") : String × String) ≠ ("2024-01-02", "Alice") := by
  refine ⟨rfl, by decide, by decide⟩

/-- C7 (amended): when the merge-restricted query completes without raising and
yields no result (non-zero exit, empty output, or output without exactly one `|`),
the lookup is decided by the unrestricted query; a raised exception (e.g. tool
absent) instead yields the sentinel pair immediately; and when a query yields a
result its first date token is normalized to `YYYY-MM-DD`, a parse failure (or a
missing date token) producing the sentinel pair for the entire call. -/
theorem claim_C7_amended :
    (∀ q2 : GitQuery, get_git_info (.error ()) q2 = ("N/A", "N/A"))
    ∧ (∀ (rc : Int) (out : String) (q2 : GitQuery),
        (¬ rc = 0 ∨ trimChars out.data = [] ∨
          ¬ (splitOnC '|' (trimChars out.data)).length = 2) →
        get_git_info (.ok (rc, out)) q2 = lookupSingle q2)
    ∧ (∀ (out : String) (q2 : GitQuery) (ds au tk : List Char) (ymd : Nat × Nat × Nat),
        splitOnC '|' (trimChars out.data) = [ds, au] → firstTok ds = some tk →
        parseYMD tk = some ymd →
        get_git_info (.ok (0, out)) q2 = (String.mk (formatYMD ymd), String.mk au))
    ∧ (∀ (out : String) (q2 : GitQuery) (ds au : List Char),
        splitOnC '|' (trimChars out.data) = [ds, au] →
        (firstTok ds = none ∨ ∃ tk, firstTok ds = some tk ∧ parseYMD tk = none) →
        get_git_info (.ok (0, out)) q2 = ("N/A", "N/A"))
    ∧ (∀ (out : String) (ds au tk : List Char) (ymd : Nat × Nat × Nat),
        splitOnC '|' (trimChars out.data) = [ds, au] → firstTok ds = some tk →
        parseYMD tk = some ymd →
        lookupSingle (.ok (0, out)) = (String.mk (formatYMD ymd), String.mk au)) := by
  refine ⟨fun q2 => rfl, ?_, ?_, ?_, ?_⟩
  · intro rc out q2 h
    exact ggi_of_step1_none q2 (step_soft rc out h)
  · intro out q2 ds au tk ymd hsplit htok hdate
    simp [get_git_info, step_ok_parse out ds au tk ymd hsplit htok hdate]
  · intro out q2 ds au hsplit hbad
    simp [get_git_info, step_ok_badparse out ds au hsplit hbad]
  · intro out ds au tk ymd hsplit htok hdate
    simp [lookupSingle, step_ok_parse out ds au tk ymd hsplit htok hdate]

/-- C7 witness: a soft-failing merge query is decided by the unrestricted query,
and a loosely formatted date `2024-1-2` is normalized to `2024-01-02`. -/
theorem claim_C7_witness :
    get_git_info (.ok (1, "boom")) (.ok (0, "2024-1-2 10:00:00 +0000|Bob"))
        = lookupSingle (.ok (0, "2024-1-2 10:00:00 +0000|Bob"))
    ∧ lookupSingle (.ok (0, "2024-1-2 10:00:00 +0000|Bob")) = ("2024-01-02", "Bob") := by
  constructor
  · exact claim_C7_amended.2.1 1 "boom" _ (Or.inl (by decide))
  · exact claim_C7_amended.2.2.2.2 "2024-1-2 10:00:00 +0000|Bob"
      "2024-1-2 10:00:00 +0000".data "Bob".data "2024-1-2".data (2024, 1, 2)
      (by decide) (by decide) (by decide)

/-! ## Technology matcher lemmas -/

/-- A literal match consumes a case-insensitive copy of the literal. -/
theorem matchLit_spec : ∀ (s cs m r : List Char), matchLit s cs = some (m, r) →
    cs = m ++ r ∧ m.map lowerChar = s.map lowerChar := by
  intro s
  induction s with
  | nil =>
    intro cs m r h
    simp [matchLit] at h
    simp [h.1.symm, h.2.symm]
  | cons p ps ih =>
    intro cs m r h
    cases cs with
    | nil => simp [matchLit] at h
    | cons c cs' =>
      by_cases hlc : lowerChar p = lowerChar c
      · simp only [matchLit, hlc, if_true, Option.map_eq_some'] at h
        obtain ⟨⟨m', r'⟩, hrec, heq⟩ := h
        obtain ⟨h1, h2⟩ := ih cs' m' r' hrec
        obtain ⟨hm, hr⟩ := Prod.mk.injEq .. ▸ heq
        subst hm hr
        constructor
        · simp [h1]
        · simp [h2, hlc]
      · simp [matchLit, hlc] at h

/-- The whitespace run split is a decomposition into whitespace and rest. -/
theorem takeWsRun_spec : ∀ (cs run rest : List Char), takeWsRun cs = (run, rest) →
    cs = run ++ rest ∧ ∀ c ∈ run, pyWS c = true := by
  intro cs
  induction cs with
  | nil =>
    intro run rest h
    simp only [takeWsRun, Prod.mk.injEq] at h
    obtain ⟨h1, h2⟩ := h
    subst h1
    subst h2
    simp
  | cons c cs' ih =>
    intro run rest h
    by_cases hws : pyWS c
    · rcases h' : takeWsRun cs' with ⟨run', rest'⟩
      simp only [takeWsRun, hws, if_true, h'] at h
      obtain ⟨hr, hrest⟩ := Prod.mk.injEq .. ▸ h
      subst hr hrest
      obtain ⟨h1, h2⟩ := ih run' rest' h'
      refine ⟨by simp [h1], ?_⟩
      intro d hd
      rcases List.mem_cons.mp hd with rfl | hd
      · exact hws
      · exact h2 d hd
    · simp only [takeWsRun, hws, if_false] at h
      obtain ⟨hr, hrest⟩ := Prod.mk.injEq .. ▸ h
      subst hr hrest
      simp

/-- Every outcome of the token-sequence matcher is a decomposition of the input
whose matched part matches the tokens. -/
theorem matchToksAll_spec : ∀ (ts : List Tok) (cs m r : List Char),
    (m, r) ∈ matchToksAll ts cs → cs = m ++ r ∧ SeqMatch ts m := by
  intro ts
  induction ts with
  | nil =>
    intro cs m r h
    simp only [matchToksAll, List.mem_singleton, Prod.mk.injEq] at h
    obtain ⟨h1, h2⟩ := h
    subst h1
    subst h2
    exact ⟨rfl, SeqMatch.nil⟩
  | cons t ts ih =>
    intro cs m r h
    cases t with
    | lit s =>
      rcases hml : matchLit s cs with _ | ⟨m1, r1⟩
      · simp [matchToksAll, hml] at h
      · simp only [matchToksAll, hml, List.mem_map] at h
        obtain ⟨⟨m2, r2⟩, hrec, heq⟩ := h
        obtain ⟨hm, hr⟩ := Prod.mk.injEq .. ▸ heq
        subst hm hr
        obtain ⟨hcs, hlc⟩ := matchLit_spec s cs m1 r1 hml
        obtain ⟨hr1, hsm⟩ := ih r1 m2 r2 hrec
        exact ⟨by simp [hcs, hr1], SeqMatch.cons _ _ _ _ (TokMatch.lit s m1 hlc) hsm⟩
    | ws =>
      rcases hws : takeWsRun cs with ⟨run, rest⟩
      simp only [matchToksAll, hws] at h
      cases run with
      | nil => simp at h
      | cons w ws' =>
        simp only [List.mem_map] at h
        obtain ⟨⟨m2, r2⟩, hrec, heq⟩ := h
        obtain ⟨hm, hr⟩ := Prod.mk.injEq .. ▸ heq
        subst hm hr
        obtain ⟨hcs, hall⟩ := takeWsRun_spec cs (w :: ws') rest hws
        obtain ⟨hr1, hsm⟩ := ih rest m2 r2 hrec
        refine ⟨by simp [hcs, hr1], SeqMatch.cons _ _ _ _ (TokMatch.ws _ (by simp) hall) hsm⟩
    | alts alist =>
      simp only [matchToksAll, List.mem_flatten, List.mem_map] at h
      obtain ⟨lb, ⟨a, ha, hlb⟩, hmem⟩ := h
      rcases hml : matchLit a cs with _ | ⟨m1, r1⟩
      · rw [hml] at hlb; subst hlb; simp at hmem
      · rw [hml] at hlb
        subst hlb
        simp only [List.mem_map] at hmem
        obtain ⟨⟨m2, r2⟩, hrec, heq⟩ := hmem
        obtain ⟨hm, hr⟩ := Prod.mk.injEq .. ▸ heq
        subst hm hr
        obtain ⟨hcs, hlc⟩ := matchLit_spec a cs m1 r1 hml
        obtain ⟨hr1, hsm⟩ := ih r1 m2 r2 hrec
        exact ⟨by simp [hcs, hr1],
          SeqMatch.cons _ _ _ _ (TokMatch.alts alist m1 a ha hlc) hsm⟩

/-- A winning outcome comes from the outcome list. -/
theorem firstGood_spec : ∀ (l : List (List Char × List Char)) (prev : Option Char)
    (m : List Char), firstGood prev l = some m → ∃ r, (m, r) ∈ l := by
  intro l
  induction l with
  | nil => intro prev m h; simp [firstGood] at h
  | cons pr rest ih =>
    intro prev m h
    obtain ⟨m1, r1⟩ := pr
    by_cases hb : boundaryAt (lastOr m1 prev) r1.head? = true
    · simp only [firstGood, hb, if_true, Option.some.injEq] at h
      subst h
      exact ⟨r1, List.mem_cons_self _ _⟩
    · simp only [firstGood, hb, if_false] at h
      obtain ⟨r, hr⟩ := ih prev m h
      exact ⟨r, List.mem_cons_of_mem _ hr⟩

/-- An anchored match is an outcome of the token matcher. -/
theorem matchAt_spec (ts : List Tok) (prev : Option Char) (cs m : List Char)
    (h : matchAt ts prev cs = some m) : ∃ r, (m, r) ∈ matchToksAll ts cs := by
  by_cases hb : boundaryAt prev cs.head? = true
  · simp only [matchAt, hb, if_true] at h
    exact firstGood_spec _ prev m h
  · simp [matchAt, hb] at h

/-- The leftmost match is a matched infix of the scanned text. -/
theorem firstMatchAux_spec (ts : List Tok) : ∀ (cs : List Char) (prev : Option Char)
    (m : List Char), firstMatchAux ts prev cs = some m →
    (∃ a b, cs = a ++ (m ++ b)) ∧ SeqMatch ts m := by
  intro cs
  induction cs with
  | nil =>
    intro prev m h
    simp only [firstMatchAux] at h
    obtain ⟨r, hr⟩ := matchAt_spec ts prev [] m h
    obtain ⟨hcs, hsm⟩ := matchToksAll_spec ts [] m r hr
    exact ⟨⟨[], r, by simpa using hcs⟩, hsm⟩
  | cons c cs' ih =>
    intro prev m h
    rcases hma : matchAt ts prev (c :: cs') with _ | m0
    · simp only [firstMatchAux, hma] at h
      obtain ⟨⟨a, b, hab⟩, hsm⟩ := ih (some c) m h
      exact ⟨⟨c :: a, b, by simp [hab]⟩, hsm⟩
    · simp only [firstMatchAux, hma, Option.some.injEq] at h
      subst h
      obtain ⟨r, hr⟩ := matchAt_spec ts prev (c :: cs') m0 hma
      obtain ⟨hcs, hsm⟩ := matchToksAll_spec ts (c :: cs') m0 r hr
      exact ⟨⟨[], r, by simpa using hcs⟩, hsm⟩

/-- The first match of a pattern is a matched infix of the content. -/
theorem firstMatch_spec (ts : List Tok) (cs m : List Char)
    (h : firstMatch ts cs = some m) :
    (∃ a b, cs = a ++ (m ++ b)) ∧ SeqMatch ts m :=
  firstMatchAux_spec ts cs none m h

/-- Membership after a set insertion. -/
theorem addLabel_mem {acc : List (List Char)} {t l : List Char}
    (h : l ∈ addLabel acc t) : l ∈ acc ∨ l = t := by
  by_cases hmem : t ∈ acc
  · simp only [addLabel, hmem, if_true] at h
    exact Or.inl h
  · simp only [addLabel, hmem, if_false, List.mem_append] at h
    rcases h with h | h
    · exact Or.inl h
    · simp at h; exact Or.inr h

/-- Set insertion preserves duplicate-freedom. -/
theorem addLabel_nodup {acc : List (List Char)} (t : List Char)
    (h : acc.Nodup) : (addLabel acc t).Nodup := by
  by_cases hmem : t ∈ acc
  · simpa [addLabel, hmem] using h
  · simp only [addLabel, hmem, if_false]
    rw [List.nodup_append]
    exact ⟨h, List.nodup_singleton t, by
      intro x hx hx'
      simp at hx'
      subst hx'
      exact hmem hx⟩

/-- Set insertion grows the list by at most one. -/
theorem addLabel_length (acc : List (List Char)) (t : List Char) :
    (addLabel acc t).length ≤ acc.length + 1 := by
  by_cases hmem : t ∈ acc <;> simp [addLabel, hmem]

/-- Everything the pattern fold collects is the stripped first match of a pattern. -/
theorem foldTech_mem (cs : List Char) : ∀ (ps : List (List Tok))
    (acc : List (List Char)) (l : List Char),
    l ∈ ps.foldl (fun acc p =>
      match firstMatch p cs with
      | some m => addLabel acc (trimChars m)
      | none => acc) acc →
    l ∈ acc ∨ ∃ p ∈ ps, ∃ m, firstMatch p cs = some m ∧ l = trimChars m := by
  intro ps
  induction ps with
  | nil => intro acc l h; exact Or.inl (by simpa using h)
  | cons p ps ih =>
    intro acc l h
    rw [List.foldl_cons] at h
    rcases hfm : firstMatch p cs with _ | m <;> rw [hfm] at h
    · rcases ih acc l h with h' | ⟨p', hp', m', hm', hl⟩
      · exact Or.inl h'
      · exact Or.inr ⟨p', List.mem_cons_of_mem _ hp', m', hm', hl⟩
    · rcases ih (addLabel acc (trimChars m)) l h with h' | ⟨p', hp', m', hm', hl⟩
      · rcases addLabel_mem h' with h'' | h''
        · exact Or.inl h''
        · exact Or.inr ⟨p, List.mem_cons_self _ _, m, hfm, h''⟩
      · exact Or.inr ⟨p', List.mem_cons_of_mem _ hp', m', hm', hl⟩

/-- The pattern fold keeps the collection duplicate-free. -/
theorem foldTech_nodup (cs : List Char) : ∀ (ps : List (List Tok))
    (acc : List (List Char)), acc.Nodup →
    (ps.foldl (fun acc p =>
      match firstMatch p cs with
      | some m => addLabel acc (trimChars m)
      | none => acc) acc).Nodup := by
  intro ps
  induction ps with
  | nil => intro acc h; simpa using h
  | cons p ps ih =>
    intro acc h
    rw [List.foldl_cons]
    rcases hfm : firstMatch p cs with _ | m
    · exact ih acc h
    · exact ih (addLabel acc (trimChars m)) (addLabel_nodup _ h)

/-- The pattern fold adds at most one label per pattern. -/
theorem foldTech_length (cs : List Char) : ∀ (ps : List (List Tok))
    (acc : List (List Char)),
    (ps.foldl (fun acc p =>
      match firstMatch p cs with
      | some m => addLabel acc (trimChars m)
      | none => acc) acc).length ≤ acc.length + ps.length := by
  intro ps
  induction ps with
  | nil => intro acc; simp
  | cons p ps ih =>
    intro acc
    rw [List.foldl_cons]
    rcases hfm : firstMatch p cs with _ | m
    · calc _ ≤ acc.length + ps.length := ih acc
        _ ≤ acc.length + (p :: ps).length := by rw [List.length_cons]; omega
    · calc _ ≤ (addLabel acc (trimChars m)).length + ps.length := ih _
        _ ≤ acc.length + 1 + ps.length := by
            have := addLabel_length acc (trimChars m); omega
        _ ≤ acc.length + (p :: ps).length := by rw [List.length_cons]; omega

/-- The collected labels are duplicate-free. -/
theorem techLabels_nodup (cs : List Char) : (techLabels cs).Nodup :=
  foldTech_nodup cs tech_patterns [] List.nodup_nil

/-- Each collected label is the stripped first match of a catalog pattern. -/
theorem techLabels_mem (cs : List Char) (l : List Char) (h : l ∈ techLabels cs) :
    ∃ p ∈ tech_patterns, ∃ m, firstMatch p cs = some m ∧ l = trimChars m := by
  rcases foldTech_mem cs tech_patterns [] l h with h' | h'
  · simp at h'
  · exact h'

/-- At most one label per pattern is collected. -/
theorem techLabels_length (cs : List Char) :
    (techLabels cs).length ≤ tech_patterns.length := by
  have := foldTech_length cs tech_patterns []
  simpa using this

/-- The case-insensitive comparison is total. -/
theorem leCI_total (a b : List Char) : leCI a b = true ∨ leCI b a = true :=
  listLe_total (a.map lowerChar) (b.map lowerChar)

/-- The case-insensitive comparison is transitive. -/
theorem leCI_trans {a b c : List Char} (h1 : leCI a b = true) (h2 : leCI b c = true) :
    leCI a c = true :=
  listLe_trans h1 h2

/-- C5: the technologies result is either the sentinel `"N/A"` or a `", "`-joined,
case-insensitively sorted, duplicate-free list of labels, where each label is the
whitespace-stripped first (leftmost) match of some catalog pattern, taken verbatim
from the document (original casing), and the matched text agrees with the pattern's
literals case-insensitively (`SeqMatch`). -/
theorem claim_C5 : ∀ content : String,
    extract_technologies content = "N/A"
    ∨ ∃ L, L ≠ []
        ∧ extract_technologies content = String.mk (List.intercalate [',', ' '] L)
        ∧ L.Pairwise (fun a b => leCI a b = true)
        ∧ L.Nodup
        ∧ ∀ l ∈ L, ∃ p ∈ tech_patterns, ∃ m, firstMatch p content.data = some m
            ∧ l = trimChars m ∧ SeqMatch p m := by
  intro content
  rcases h : techLabels content.data with _ | ⟨x, xs⟩
  · left
    simp [extract_technologies, h]
  · right
    refine ⟨sortLe leCI (x :: xs), ?_, ?_, ?_, ?_, ?_⟩
    · have hlen : (sortLe leCI (x :: xs)).length = (x :: xs).length :=
        (sortLe_perm leCI (x :: xs)).length_eq
      intro hnil
      rw [hnil] at hlen
      simp at hlen
    · simp [extract_technologies, h]
    · exact sortLe_pairwise leCI leCI_total
        (fun a b c hab hbc => @leCI_trans a b c hab hbc) (x :: xs)
    · exact ((sortLe_perm leCI (x :: xs)).symm.nodup) (h ▸ techLabels_nodup content.data)
    · intro l hl
      have hl' : l ∈ techLabels content.data := by
        rw [h]
        exact (sortLe_perm leCI (x :: xs)).mem_iff.mp hl
      obtain ⟨p, hp, m, hm, hlm⟩ := techLabels_mem content.data l hl'
      exact ⟨p, hp, m, hm, hlm, (firstMatch_spec p content.data m hm).2⟩

/-- C10: when the technologies result is not the sentinel, it is built from at most
one label per catalog pattern (19 patterns, hence at most 19 labels), each label
being the stripped first match of its pattern, and the matched text occurring
verbatim (internal whitespace, including newlines, preserved) as an infix of the
document. -/
theorem claim_C10 : ∀ content : String,
    extract_technologies content = "N/A"
    ∨ ∃ L, extract_technologies content = String.mk (List.intercalate [',', ' '] L)
        ∧ L.length ≤ tech_patterns.length ∧ tech_patterns.length = 19
        ∧ L.Nodup
        ∧ ∀ l ∈ L, ∃ p ∈ tech_patterns, ∃ m, firstMatch p content.data = some m
            ∧ l = trimChars m ∧ ∃ a b, content.data = a ++ (m ++ b) := by
  intro content
  rcases h : techLabels content.data with _ | ⟨x, xs⟩
  · left
    simp [extract_technologies, h]
  · right
    refine ⟨sortLe leCI (x :: xs), ?_, ?_, by decide, ?_, ?_⟩
    · simp [extract_technologies, h]
    · have hlen : (sortLe leCI (x :: xs)).length = (x :: xs).length :=
        (sortLe_perm leCI (x :: xs)).length_eq
      rw [hlen, ← h]
      exact techLabels_length content.data
    · exact ((sortLe_perm leCI (x :: xs)).symm.nodup) (h ▸ techLabels_nodup content.data)
    · intro l hl
      have hl' : l ∈ techLabels content.data := by
        rw [h]
        exact (sortLe_perm leCI (x :: xs)).mem_iff.mp hl
      obtain ⟨p, hp, m, hm, hlm⟩ := techLabels_mem content.data l hl'
      exact ⟨p, hp, m, hm, hlm, (firstMatch_spec p content.data m hm).1⟩

/-! ## Frontmatter lemmas -/

/-- A quote character is not whitespace. -/
theorem quote_not_ws {q : Char} (h : isQuoteC q = true) : pyWS q = false := by
  rcases of_decide_eq_true h with rfl | rfl <;> decide

/-- A quote character is not a newline. -/
theorem quote_not_nl {q : Char} (h : isQuoteC q = true) : q ≠ '\n' := by
  rcases of_decide_eq_true h with rfl | rfl <;> decide

/-- Scanning for the closing delimiter passes over newline-free text. -/
theorem findClose_noNl : ∀ (xs ys : List Char), (∀ c ∈ xs, c ≠ '\n') →
    findClose (xs ++ ys) = (findClose ys).map (fun g => xs ++ g) := by
  intro xs
  induction xs with
  | nil =>
    intro ys _
    simp
  | cons c xs' ih =>
    intro ys h
    have hc : c ≠ '\n' := h c (List.mem_cons_self _ _)
    have hne : ¬ ('\n' = c) := fun h' => hc h'.symm
    have hch : closeHere (c :: (xs' ++ ys)) = false := by
      simp [closeHere, isPrefLit, hne]
    rw [List.cons_append, findClose, hch]
    simp only [if_false, Bool.false_eq_true]
    rw [ih ys (fun x hx => h x (List.mem_cons_of_mem _ hx))]
    cases findClose ys <;> simp

/-- The closing delimiter is recognized at `\n---\n`. -/
theorem closeHere_marker (after : List Char) :
    closeHere ('\n' :: '-' :: '-' :: '-' :: '\n' :: after) = true := by
  have hnl : pyWS '\n' = true := by decide
  simp only [closeHere, isPrefLit]
  have h : wsRun ('\n' :: after) = '\n' :: List.takeWhile pyWS after := by
    simp [wsRun, List.takeWhile_cons, hnl]
  simp [h]

/-- The lazy group collects clean characters up to the closing quote. -/
theorem grabGo_clean : ∀ (t acc rest : List Char) (q : Char), isQuoteC q = true →
    (∀ c ∈ t, isQuoteC c = false ∧ c ≠ '\n') →
    grabGo acc (t ++ q :: rest) = some (acc.reverse ++ t) := by
  intro t
  induction t with
  | nil =>
    intro acc rest q hq _
    simp [grabGo, hq]
  | cons c t' ih =>
    intro acc rest q hq h
    have hc := h c (List.mem_cons_self _ _)
    rw [List.cons_append, grabGo]
    rw [hc.1]
    simp only [Bool.false_eq_true, if_false, hc.2, ite_false]
    rw [ih (c :: acc) rest q hq (fun x hx => h x (List.mem_cons_of_mem _ hx))]
    simp

/-- The quoted-value grab returns exactly a nonempty clean value. -/
theorem grabValue_clean (t rest : List Char) (q : Char) (hne : t ≠ [])
    (hclean : ∀ c ∈ t, isQuoteC c = false ∧ c ≠ '\n') (hq : isQuoteC q = true) :
    grabValue (t ++ q :: rest) = some t := by
  cases t with
  | nil => exact absurd rfl hne
  | cons c t' =>
    have hc := hclean c (List.mem_cons_self _ _)
    rw [List.cons_append, grabValue]
    simp only [hc.2, ite_false]
    rw [grabGo_clean t' [c] rest q hq (fun x hx => hclean x (List.mem_cons_of_mem _ hx))]
    simp

/-- A failed anchored key attempt. -/
theorem tryKeyAt_none_of_pref (key s : List Char) (h : isPrefLit key s = false) :
    tryKeyAt key s = none := by
  simp [tryKeyAt, h]

/-- A failed position is skipped by the scan. -/
theorem searchVal_cons_none (key : List Char) (c : Char) (cs : List Char)
    (h : tryKeyAt key (c :: cs) = none) :
    searchVal key (c :: cs) = searchVal key cs := by
  rw [searchVal, h]

/-- A successful position stops the scan. -/
theorem searchVal_cons_some (key : List Char) (c : Char) (cs v : List Char)
    (h : tryKeyAt key (c :: cs) = some v) :
    searchVal key (c :: cs) = some v := by
  rw [searchVal, h]

/-- Reduction of the parser when the frontmatter regex matches. -/
theorem parse_frontmatter_of_fm (content : String) (fm : List Char)
    (h : fmMatch content.data = some fm) :
    parse_frontmatter content
      = (String.mk ((searchVal titleKey fm).getD []),
          String.mk ((searchVal descKey fm).getD [])) := by
  unfold parse_frontmatter
  rw [h]

/-- C3 (amended): when the frontmatter regex recognizes the block — which requires
at least one (possibly empty) line strictly between the two `---` delimiter lines —
and both fields are absent, the parser returns empty title and description without
running the heading fallback, so the combined description field is the sentinel.
(A document whose two `---` lines are immediately adjacent is NOT recognized and
falls through to the heading fallback; see the counterexample.) -/
theorem claim_C3_amended : ∀ (content : String) (fm : List Char),
    fmMatch content.data = some fm →
    searchVal titleKey fm = none → searchVal descKey fm = none →
    parse_frontmatter content = ("", "")
    ∧ combineDesc (parse_frontmatter content) = "N/A" := by
  intro content fm hfm ht hd
  have hp : parse_frontmatter content = ("", "") := by
    rw [parse_frontmatter_of_fm content fm hfm, ht, hd]
    rfl
  exact ⟨hp, by rw [hp]; rfl⟩

/-- C3 witness: `---`, a blank line, `---` is recognized frontmatter with an empty
body; both fields are absent, and despite the following H1 heading the description
collapses to the sentinel (no heading fallback). -/
theorem claim_C3_witness :
    fmMatch ("---\n\n---\n# T\nSome words." : String).data = some []
    ∧ searchVal titleKey [] = none
    ∧ searchVal descKey [] = none
    ∧ parse_frontmatter "---\n\n---\n# T\nSome words." = ("", "")
    ∧ combineDesc (parse_frontmatter "---\n\n---\n# T\nSome words.") = "N/A" :=
  ⟨by decide, rfl, rfl,
    (claim_C3_amended "---\n\n---\n# T\nSome words." [] (by decide) rfl rfl).1,
    (claim_C3_amended "---\n\n---\n# T\nSome words." [] (by decide) rfl rfl).2⟩

/-- C3 (as stated) is false for frontmatter that is empty between the delimiters:
`---\n---\n` is not matched by the code's regex (which demands a line between the
delimiters), so the heading fallback DOES run and the description field is not the
sentinel. -/
theorem claim_C3_cx :
    parse_frontmatter "---\n---\n# Widgets\n\nAll about widgets."
        = ("Widgets", "All about widgets.")
    ∧ combineDesc (parse_frontmatter "---\n---\n# Widgets\n\nAll about widgets.")
        = "Widgets. All about widgets."
    ∧ combineDesc (parse_frontmatter "---\n---\n# Widgets\n\nAll about widgets.")
        ≠ "N/A" :=
  ⟨by decide, by decide, by decide⟩

/-- C4 (as stated) is false when a quoted value itself contains a quote character of
the other kind: the lazy group stops at the first quote, so `title: "don't"` yields
`don`, not `don't`. -/
theorem claim_C4_cx :
    parse_frontmatter "---\ntitle: \"don't\"\ndescription: 'x'\n---\nrest"
        = ("don", "x")
    ∧ (("don", "x") : String × String) ≠ ("don't", "x") :=
  ⟨by decide, by decide⟩

/-- A literal prefix is no longer than the text. -/
theorem isPrefLit_length : ∀ (k s : List Char), isPrefLit k s = true → k.length ≤ s.length := by
  intro k
  induction k with
  | nil => intro s _; simp
  | cons k0 k' ih =>
    intro s h
    cases s with
    | nil => simp [isPrefLit] at h
    | cons c cs =>
      simp only [isPrefLit, decide_eq_true_eq] at h
      simpa using ih cs (by simpa using h.2)

/-- A list is a literal prefix of itself followed by anything. -/
theorem isPrefLit_self_append : ∀ (k x : List Char), isPrefLit k (k ++ x) = true := by
  intro k
  induction k with
  | nil => intro x; rfl
  | cons k0 k' ih => intro x; simp [isPrefLit, ih]

/-- A literal prefix exhibits the text as key plus remainder. -/
theorem isPrefLit_exists : ∀ (k s : List Char), isPrefLit k s = true → ∃ r, s = k ++ r := by
  intro k
  induction k with
  | nil => intro s _; exact ⟨s, rfl⟩
  | cons k0 k' ih =>
    intro s h
    cases s with
    | nil => simp [isPrefLit] at h
    | cons c cs =>
      simp only [isPrefLit, decide_eq_true_eq] at h
      obtain ⟨r, hr⟩ := ih cs (by simpa using h.2)
      exact ⟨r, by rw [hr, h.1, List.cons_append]⟩

/-- A literal prefix of an appended text either fits in the first part or splits
the key across the seam. -/
theorem isPrefLit_append_cases : ∀ (k t2 z : List Char), isPrefLit k (t2 ++ z) = true →
    isPrefLit k t2 = true
    ∨ ∃ k1 k2, k = k1 ++ k2 ∧ k2 ≠ [] ∧ k1 = t2 ∧ isPrefLit k2 z = true := by
  intro k
  induction k with
  | nil => intro t2 z _; left; rfl
  | cons k0 k' ih =>
    intro t2 z h
    cases t2 with
    | nil =>
      right
      exact ⟨[], k0 :: k', rfl, by simp, rfl, by simpa using h⟩
    | cons c t2' =>
      rw [List.cons_append] at h
      simp only [isPrefLit, decide_eq_true_eq] at h
      have h2 : isPrefLit k' (t2' ++ z) = true := by simpa using h.2
      rcases ih t2' z h2 with hl | ⟨k1, k2, hk, hk2, hk1, hz⟩
      · left
        simp [isPrefLit, h.1, hl]
      · right
        refine ⟨k0 :: k1, k2, by rw [hk, List.cons_append], hk2, ?_, hz⟩
        rw [hk1, h.1]

/-- Splitting a failed occurrence test at the head. -/
theorem occursB_head_split {key : List Char} {c : Char} {cs : List Char}
    (h : occursB key (c :: cs) = false) :
    isPrefLit key (c :: cs) = false ∧ occursB key cs = false := by
  simpa [occursB] using h

/-- A substring occurrence needs at least the key's length. -/
theorem occursB_length : ∀ (key s : List Char), occursB key s = true →
    key.length ≤ s.length := by
  intro key s
  induction s with
  | nil =>
    intro h
    cases key with
    | nil => simp
    | cons k0 k' => simp [occursB, isPrefLit] at h
  | cons c cs ih =>
    intro h
    simp only [occursB, Bool.or_eq_true] at h
    rcases h with h | h
    · exact isPrefLit_length key (c :: cs) h
    · exact Nat.le_succ_of_le (by simpa using ih h)

/-- Dropping past a prefix of an append. -/
theorem drop_append_le : ∀ (n : Nat) (a b : List Char), n ≤ a.length →
    (a ++ b).drop n = a.drop n ++ b := by
  intro n a
  induction a generalizing n with
  | nil =>
    intro b hn
    have : n = 0 := Nat.le_zero.mp (by simpa using hn)
    subst this
    simp
  | cons x a' ih =>
    intro b hn
    cases n with
    | zero => simp
    | succ n' =>
      rw [List.cons_append, List.drop_succ_cons, List.drop_succ_cons]
      exact ih n' b (by simpa using hn)

/-- `grabValue` fails on an empty tail or one that starts with a newline. -/
theorem grabValue_stop (T : List Char) (h : T = [] ∨ ∃ x, T = '\n' :: x) :
    grabValue T = none := by
  rcases h with rfl | ⟨x, rfl⟩
  · rfl
  · simp [grabValue]

/-- `grabGo` fails on an empty tail or one that starts with a newline. -/
theorem grabGo_stop (acc T : List Char) (h : T = [] ∨ ∃ x, T = '\n' :: x) :
    grabGo acc T = none := by
  rcases h with rfl | ⟨x, rfl⟩
  · rfl
  · simp [grabGo, isQuoteC]

/-- Dropping whitespace passes over an all-whitespace segment. -/
theorem dropWhile_ws_append : ∀ (sp x : List Char), (∀ c ∈ sp, pyWS c = true) →
    List.dropWhile pyWS (sp ++ x) = List.dropWhile pyWS x := by
  intro sp
  induction sp with
  | nil => intro x _; rfl
  | cons s0 sp' ih =>
    intro x h
    rw [List.cons_append, List.dropWhile_cons_of_pos (h s0 (List.mem_cons_self _ _))]
    exact ih x (fun c hc => h c (List.mem_cons_of_mem _ hc))

/-- Inside a quote-free value region, dropping whitespace stops at a non-quote
character of the value or at the closing quote. -/
theorem dropWs_value_cases : ∀ (vb : List Char) (q : Char) (T : List Char),
    (∀ c ∈ vb, isQuoteC c = false) → isQuoteC q = true →
    ∃ c y, List.dropWhile pyWS (vb ++ q :: T) = c :: y
      ∧ (isQuoteC c = false ∨ (c = q ∧ y = T)) := by
  intro vb
  induction vb with
  | nil =>
    intro q T _ hq
    rw [List.nil_append, List.dropWhile_cons_of_neg (by simp [quote_not_ws hq])]
    exact ⟨q, T, rfl, Or.inr ⟨rfl, rfl⟩⟩
  | cons c vb' ih =>
    intro q T hv hq
    by_cases hws : pyWS c = true
    · rw [List.cons_append, List.dropWhile_cons_of_pos hws]
      exact ih q T (fun x hx => hv x (List.mem_cons_of_mem _ hx)) hq
    · rw [List.cons_append, List.dropWhile_cons_of_neg hws]
      exact ⟨c, vb' ++ q :: T, rfl, Or.inl (hv c (List.mem_cons_self _ _))⟩

/-- A character of the key is never a quote. -/
theorem key_not_quote {key : List Char} (hgk : goodSearchKey key) {c : Char}
    (hc : c ∈ key) : isQuoteC c = false :=
  (hgk.2 c hc).1

/-- A character of the key is never whitespace. -/
theorem key_not_ws {key : List Char} (hgk : goodSearchKey key) {c : Char}
    (hc : c ∈ key) : pyWS c = false :=
  (hgk.2 c hc).2

/-- An anchored key attempt fails at any position inside a quote-free region that
is followed by a quote whose own tail is unusable: even when the key occurs there,
the quoted-value grab cannot succeed. -/
theorem tryKeyAt_value_fail (key vb : List Char) (q : Char) (T : List Char)
    (hgk : goodSearchKey key) (hv : ∀ c ∈ vb, isQuoteC c = false)
    (hq : isQuoteC q = true) (hT : grabValue T = none) :
    tryKeyAt key (vb ++ q :: T) = none := by
  by_cases hp : isPrefLit key (vb ++ q :: T) = true
  · rcases isPrefLit_append_cases key vb (q :: T) hp with hpre | ⟨k1, k2, hk, hk2, hk1, hpz⟩
    · have hlen := isPrefLit_length key vb hpre
      have hdrop : (vb ++ q :: T).drop key.length = vb.drop key.length ++ q :: T :=
        drop_append_le key.length vb (q :: T) hlen
      have hv' : ∀ c ∈ vb.drop key.length, isQuoteC c = false :=
        fun c hc => hv c (List.mem_of_mem_drop hc)
      obtain ⟨c, y, hdw, hcase⟩ := dropWs_value_cases (vb.drop key.length) q T hv' hq
      rcases hcase with hcq | ⟨hc, hy⟩
      · simp [tryKeyAt, hp, hdrop, hdw, hcq]
      · subst hc
        subst hy
        simp [tryKeyAt, hp, hdrop, hdw, hq, hT]
    · cases k2 with
      | nil => exact absurd rfl hk2
      | cons k20 k2' =>
        have hq20 : k20 = q := by
          simpa [isPrefLit] using (by simpa [isPrefLit] using hpz : _ ∧ _).1
        have hmem : k20 ∈ key := by
          rw [hk]
          exact List.mem_append_right k1 (List.mem_cons_self _ _)
        have := key_not_quote hgk hmem
        rw [hq20, hq] at this
        exact absurd this (by simp)
  · simp [tryKeyAt, hp]

/-- An anchored key attempt fails at any position inside the whitespace run before
the opening quote, and at the opening quote itself. -/
theorem tryKeyAt_ws_fail (key spb : List Char) (q : Char) (X : List Char)
    (hgk : goodSearchKey key) (hsp : ∀ c ∈ spb, pyWS c = true)
    (hq : isQuoteC q = true) :
    tryKeyAt key (spb ++ q :: X) = none := by
  by_cases hp : isPrefLit key (spb ++ q :: X) = true
  · exfalso
    rcases isPrefLit_append_cases key spb (q :: X) hp with hpre | ⟨k1, k2, hk, hk2, hk1, hpz⟩
    · cases key with
      | nil => exact hgk.1 rfl
      | cons k0 k' =>
        cases spb with
        | nil => simp [isPrefLit] at hpre
        | cons s0 spb' =>
          simp only [isPrefLit, decide_eq_true_eq] at hpre
          have hws := hsp s0 (List.mem_cons_self _ _)
          have := key_not_ws hgk (List.mem_cons_self k0 k')
          rw [hpre.1, hws] at this
          exact absurd this (by simp)
    · cases k2 with
      | nil => exact hk2 rfl
      | cons k20 k2' =>
        have hq20 : k20 = q := by
          simpa [isPrefLit] using (by simpa [isPrefLit] using hpz : _ ∧ _).1
        have hmem : k20 ∈ key := by
          rw [hk]
          exact List.mem_append_right k1 (List.mem_cons_self _ _)
        have := key_not_quote hgk hmem
        rw [hq20, hq] at this
        exact absurd this (by simp)
  · simp [tryKeyAt, hp]

/-- An anchored key attempt fails at any position inside the key region of a line
where the key does not occur. -/
theorem tryKeyAt_key_fail (key kb SP : List Char) (q : Char) (X : List Char)
    (hgk : goodSearchKey key) (hpf : isPrefLit key kb = false)
    (hsp : ∀ c ∈ SP, pyWS c = true) (hq : isQuoteC q = true) :
    tryKeyAt key (kb ++ (SP ++ q :: X)) = none := by
  by_cases hp : isPrefLit key (kb ++ (SP ++ q :: X)) = true
  · exfalso
    rcases isPrefLit_append_cases key kb (SP ++ q :: X) hp with hpre | ⟨k1, k2, hk, hk2, hk1, hpz⟩
    · rw [hpre] at hpf
      exact absurd hpf (by simp)
    · cases k2 with
      | nil => exact hk2 rfl
      | cons k20 k2' =>
        have hmem : k20 ∈ key := by
          rw [hk]
          exact List.mem_append_right k1 (List.mem_cons_self _ _)
        cases SP with
        | nil =>
          have hq20 : k20 = q := by
            simpa [isPrefLit] using (by simpa [isPrefLit] using hpz : _ ∧ _).1
          have := key_not_quote hgk hmem
          rw [hq20, hq] at this
          exact absurd this (by simp)
        | cons s0 SP' =>
          have hq20 : k20 = s0 := by
            rw [List.cons_append] at hpz
            simpa [isPrefLit] using (by simpa [isPrefLit] using hpz : _ ∧ _).1
          have hws := hsp s0 (List.mem_cons_self _ _)
          have := key_not_ws hgk hmem
          rw [hq20, hws] at this
          exact absurd this (by simp)
  · simp [tryKeyAt, hp]

/-- The scan steps over a newline (the key has no whitespace characters). -/
theorem searchVal_step_nl (key cs : List Char) (hgk : goodSearchKey key) :
    searchVal key ('\n' :: cs) = searchVal key cs := by
  cases key with
  | nil => exact absurd rfl hgk.1
  | cons k0 k' =>
    apply searchVal_cons_none
    apply tryKeyAt_none_of_pref
    have hne : ¬ (k0 = '\n') := by
      intro h
      have := key_not_ws ⟨(by simp : (k0 :: k') ≠ []), fun c hc => ⟨(hgk.2 c hc).1, (hgk.2 c hc).2⟩⟩
        (List.mem_cons_self k0 k')
      rw [h] at this
      exact absurd this (by decide)
    simp [isPrefLit, hne]

/-- The scan passes over a quote-free region ending at a quote with unusable tail. -/
theorem skipVal (key : List Char) : ∀ (vb : List Char) (q : Char) (T : List Char),
    goodSearchKey key → (∀ c ∈ vb, isQuoteC c = false) → isQuoteC q = true →
    grabValue T = none →
    searchVal key (vb ++ q :: T) = searchVal key T := by
  intro vb
  induction vb with
  | nil =>
    intro q T hgk _ hq hT
    rw [List.nil_append]
    exact searchVal_cons_none key q T
      (by simpa using tryKeyAt_value_fail key [] q T hgk (by simp) hq hT)
  | cons c vb' ih =>
    intro q T hgk hv hq hT
    rw [List.cons_append]
    rw [searchVal_cons_none key c (vb' ++ q :: T)
      (by simpa using tryKeyAt_value_fail key (c :: vb') q T hgk hv hq hT)]
    exact ih q T hgk (fun x hx => hv x (List.mem_cons_of_mem _ hx)) hq hT

/-- The scan passes over the spacing, the opening quote, and the quoted value of a
line whose value cannot be grabbed by the searched key (its tail is unusable). -/
theorem skipSp (key : List Char) : ∀ (spb V : List Char) (q : Char) (T : List Char),
    goodSearchKey key → (∀ c ∈ spb, pyWS c = true) → (∀ c ∈ V, isQuoteC c = false) →
    isQuoteC q = true → grabValue T = none →
    searchVal key (spb ++ q :: (V ++ q :: T)) = searchVal key T := by
  intro spb
  induction spb with
  | nil =>
    intro V q T hgk _ hv hq hT
    rw [List.nil_append]
    rw [searchVal_cons_none key q (V ++ q :: T)
      (by simpa using tryKeyAt_ws_fail key [] q (V ++ q :: T) hgk (by simp) hq)]
    exact skipVal key V q T hgk hv hq hT
  | cons s0 spb' ih =>
    intro V q T hgk hsp hv hq hT
    rw [List.cons_append]
    rw [searchVal_cons_none key s0 (spb' ++ q :: (V ++ q :: T))
      (by simpa using tryKeyAt_ws_fail key (s0 :: spb') q (V ++ q :: T) hgk hsp hq)]
    exact ih V q T hgk (fun x hx => hsp x (List.mem_cons_of_mem _ hx)) hv hq hT

/-- The scan passes over a whole (rest of a) line in whose key region the searched
key does not occur. -/
theorem skipKeyRegion (key : List Char) : ∀ (kb SP V : List Char) (q : Char) (T : List Char),
    goodSearchKey key → occursB key kb = false → (∀ c ∈ SP, pyWS c = true) →
    (∀ c ∈ V, isQuoteC c = false) → isQuoteC q = true → grabValue T = none →
    searchVal key (kb ++ (SP ++ q :: (V ++ q :: T))) = searchVal key T := by
  intro kb
  induction kb with
  | nil =>
    intro SP V q T hgk _ hsp hv hq hT
    rw [List.nil_append]
    exact skipSp key SP V q T hgk hsp hv hq hT
  | cons c kb' ih =>
    intro SP V q T hgk hocc hsp hv hq hT
    obtain ⟨hpf, htl⟩ := occursB_head_split hocc
    rw [List.cons_append]
    rw [searchVal_cons_none key c (kb' ++ (SP ++ q :: (V ++ q :: T)))
      (by simpa using tryKeyAt_key_fail key (c :: kb') SP q (V ++ q :: T) hgk hpf hsp hq)]
    exact ih SP V q T hgk htl hsp hv hq hT

/-- The scan passes over an entire field line whose key does not contain the
searched key. -/
theorem skipLine (key : List Char) (L : FieldLine) (T : List Char)
    (hgk : goodSearchKey key) (hL : goodLine L) (hocc : occursB key L.key = false)
    (hT : T = [] ∨ ∃ x, T = '\n' :: x) :
    searchVal key (lineChars L ++ T) = searchVal key T := by
  have hshape : lineChars L ++ T
      = L.key ++ (L.sp ++ L.quote :: (L.value ++ L.quote :: T)) := by
    simp [lineChars]
  rw [hshape]
  exact skipKeyRegion key L.key L.sp L.value L.quote T hgk hocc
    (fun c hc => (hL.2.1 c hc).1) (fun c hc => (hL.2.2.2 c hc).1) hL.2.2.1
    (grabValue_stop T hT)

/-- The scan passes over the searched line itself when its value is empty: the
group needs at least one character, so the occurrence fails and the whole search
continues (and the empty string the code then reports equals the empty value). -/
theorem lineEmptyHit (key : List Char) (L : FieldLine) (T : List Char)
    (hgk : goodSearchKey key) (hL : goodLine L) (hkey : L.key = key)
    (hval : L.value = []) (hT : T = [] ∨ ∃ x, T = '\n' :: x) :
    searchVal key (lineChars L ++ T) = searchVal key T := by
  have hqq := hL.2.2.1
  have hqws : ¬ (pyWS L.quote = true) := by simp [quote_not_ws hqq]
  have hshape : lineChars L ++ T = key ++ (L.sp ++ L.quote :: (L.quote :: T)) := by
    simp [lineChars, hkey, hval]
  have hdw : List.dropWhile pyWS (L.sp ++ L.quote :: (L.quote :: T))
      = L.quote :: (L.quote :: T) := by
    rw [dropWhile_ws_append L.sp _ (fun c hc => (hL.2.1 c hc).1),
      List.dropWhile_cons_of_neg hqws]
  have hgv : grabValue (L.quote :: T) = none := by
    rw [grabValue, if_neg (quote_not_nl hqq)]
    exact grabGo_stop [L.quote] T hT
  have h0 : tryKeyAt key (key ++ (L.sp ++ L.quote :: (L.quote :: T))) = none := by
    simp [tryKeyAt, isPrefLit_self_append, List.drop_left, hdw, hqq, hgv]
  rw [hshape]
  cases hk : key with
  | nil => exact absurd hk hgk.1
  | cons k0 k' =>
    rw [hk] at h0
    rw [List.cons_append]
    rw [searchVal_cons_none (k0 :: k') k0 (k' ++ (L.sp ++ L.quote :: (L.quote :: T)))
      (by simpa using h0)]
    have hocc' : occursB (k0 :: k') k' = false := by
      cases h : occursB (k0 :: k') k' with
      | false => rfl
      | true =>
        exfalso
        have := occursB_length (k0 :: k') k' h
        simp at this
    have hgk' : goodSearchKey (k0 :: k') := hk ▸ hgk
    have := skipKeyRegion (k0 :: k') k' L.sp [] L.quote T hgk' hocc'
      (fun c hc => (hL.2.1 c hc).1) (by simp) hqq (grabValue_stop T hT)
    simpa using this

/-- The scan finds the searched line with a nonempty value and returns the value. -/
theorem lineHit (key : List Char) (L : FieldLine) (T : List Char)
    (hgk : goodSearchKey key) (hL : goodLine L) (hkey : L.key = key)
    (hval : L.value ≠ []) :
    searchVal key (lineChars L ++ T) = some L.value := by
  have hqq := hL.2.2.1
  have hqws : ¬ (pyWS L.quote = true) := by simp [quote_not_ws hqq]
  have hshape : lineChars L ++ T
      = key ++ (L.sp ++ L.quote :: (L.value ++ L.quote :: T)) := by
    simp [lineChars, hkey]
  have hdw : List.dropWhile pyWS (L.sp ++ L.quote :: (L.value ++ L.quote :: T))
      = L.quote :: (L.value ++ L.quote :: T) := by
    rw [dropWhile_ws_append L.sp _ (fun c hc => (hL.2.1 c hc).1),
      List.dropWhile_cons_of_neg hqws]
  have hgv : grabValue (L.value ++ L.quote :: T) = some L.value :=
    grabValue_clean L.value T L.quote hval (fun c hc => hL.2.2.2 c hc) hqq
  have h0 : tryKeyAt key (key ++ (L.sp ++ L.quote :: (L.value ++ L.quote :: T)))
      = some L.value := by
    simp [tryKeyAt, isPrefLit_self_append, List.drop_left, hdw, hqq, hgv]
  rw [hshape]
  cases hk : key with
  | nil => exact absurd hk hgk.1
  | cons k0 k' =>
    rw [hk] at h0
    rw [List.cons_append]
    exact searchVal_cons_some (k0 :: k') k0 _ L.value (by simpa using h0)


/-- A good field line renders with no newline character. -/
theorem lineChars_noNl (L : FieldLine) (hL : goodLine L) :
    ∀ c ∈ lineChars L, c ≠ '\n' := by
  intro c hc h
  subst h
  simp only [lineChars] at hc
  rcases List.mem_append.mp hc with h1 | h2
  · rcases List.mem_append.mp h1 with hk | hs
    · have := (hL.1.2.2 '\n' hk).2
      exact absurd this (by decide)
    · exact (hL.2.1 '\n' hs).2 rfl
  rcases List.mem_cons.mp h2 with hq | h3
  · exact quote_not_nl hL.2.2.1 hq.symm
  rcases List.mem_append.mp h3 with hv | h4
  · exact (hL.2.2.2 '\n' hv).2 rfl
  rcases List.mem_cons.mp h4 with hq | h5
  · exact quote_not_nl hL.2.2.1 hq.symm
  · exact absurd h5 (List.not_mem_nil _)

/-- A good field line renders as a nonempty list whose head is neither a dash
nor a whitespace character. -/
theorem lineChars_head (L : FieldLine) (hL : goodLine L) :
    ∃ c r, lineChars L = c :: r ∧ c ≠ '-' ∧ pyWS c = false := by
  obtain ⟨hne, hh, hall⟩ := hL.1
  cases hk : L.key with
  | nil => exact absurd hk hne
  | cons k0 k' =>
    refine ⟨k0, k' ++ L.sp ++ L.quote :: (L.value ++ [L.quote]), ?_, ?_, ?_⟩
    · simp [lineChars, hk]
    · intro h
      rw [hk, h] at hh
      exact hh rfl
    · exact (hall k0 (by rw [hk]; exact List.mem_cons_self _ _)).2

/-- Joining a list of lines whose first line starts with `c` yields a list
starting with `c`. -/
theorem joinLines_cons_head (ls : List (List Char)) (l : List Char) (c : Char)
    (r : List Char) (h : l = c :: r) : ∃ X, joinLines (l :: ls) = c :: X := by
  cases ls with
  | nil => exact ⟨r, by simp [joinLines, h]⟩
  | cons l2 ls' => exact ⟨r ++ '\n' :: joinLines (l2 :: ls'), by simp [joinLines, h]⟩

/-- Joining a nonempty tail prepends the head line and a newline. -/
theorem joinLines_cons_of_ne (l : List Char) (ls : List (List Char)) (h : ls ≠ []) :
    joinLines (l :: ls) = l ++ '\n' :: joinLines ls := by
  cases ls with
  | nil => exact absurd rfl h
  | cons m ms => simp [joinLines]

/-- The frontmatter matcher after the opening `---` literal. -/
theorem fmMatch_dash (rest0 : List Char) :
    fmMatch ('-' :: '-' :: '-' :: rest0) = tryKs rest0 (nlIdxDesc (wsRun rest0)) := rfl

/-- The lazy close-scan over a block of good field lines followed by the closing
delimiter returns exactly the joined block. -/
theorem findClose_join (after : List Char) : ∀ (ls : List FieldLine) (L : FieldLine),
    goodLine L → (∀ K ∈ ls, goodLine K) →
    findClose (joinLines ((L :: ls).map lineChars)
        ++ '\n' :: '-' :: '-' :: '-' :: '\n' :: after)
      = some (joinLines ((L :: ls).map lineChars)) := by
  intro ls
  induction ls with
  | nil =>
    intro L hL _
    simp only [List.map_cons, List.map_nil, joinLines]
    rw [findClose_noNl (lineChars L) _ (lineChars_noNl L hL)]
    rw [findClose, if_pos (closeHere_marker after)]
    simp
  | cons M ls' ih =>
    intro L hL hls
    have hM : goodLine M := hls M (List.mem_cons_self _ _)
    have hls' : ∀ K ∈ ls', goodLine K := fun K hK => hls K (List.mem_cons_of_mem _ hK)
    obtain ⟨c2, r2, hc2, hd2, _⟩ := lineChars_head M hM
    obtain ⟨X, hX⟩ := joinLines_cons_head (ls'.map lineChars) (lineChars M) c2 r2 hc2
    simp only [List.map_cons, joinLines]
    rw [List.append_assoc, List.cons_append]
    rw [findClose_noNl (lineChars L) _ (lineChars_noNl L hL)]
    have hch : closeHere ('\n' :: (joinLines (lineChars M :: ls'.map lineChars)
        ++ '\n' :: '-' :: '-' :: '-' :: '\n' :: after)) = false := by
      rw [hX]
      have hne : ¬ ('-' = c2) := fun h => hd2 h.symm
      simp [closeHere, isPrefLit, hne]
    rw [findClose, if_neg (by simp [hch])]
    have hih := ih M hM hls'
    simp only [List.map_cons] at hih
    rw [hih]
    simp

/-- The frontmatter regex on a canonical block of good field lines returns the
joined block as group 1. -/
theorem fmMatch_lines (ls : List FieldLine) (after : List Char)
    (L0 : FieldLine) (ls' : List FieldLine) (hshape : ls = L0 :: ls')
    (hg : ∀ L ∈ ls, goodLine L) :
    fmMatch ('-' :: '-' :: '-' :: '\n' ::
        (joinLines (ls.map lineChars) ++ '\n' :: '-' :: '-' :: '-' :: '\n' :: after))
      = some (joinLines (ls.map lineChars)) := by
  subst hshape
  have hL0 : goodLine L0 := hg L0 (List.mem_cons_self _ _)
  have hls' : ∀ K ∈ ls', goodLine K := fun K hK => hg K (List.mem_cons_of_mem _ hK)
  obtain ⟨c0, r0, hc0, _, hw0⟩ := lineChars_head L0 hL0
  obtain ⟨X, hX⟩ := joinLines_cons_head (ls'.map lineChars) (lineChars L0) c0 r0 hc0
  have hnl : pyWS '\n' = true := by decide
  have hwsr : wsRun ('\n' :: (joinLines ((L0 :: ls').map lineChars)
      ++ '\n' :: '-' :: '-' :: '-' :: '\n' :: after)) = ['\n'] := by
    simp [wsRun, List.takeWhile_cons, hnl, hX, hw0]
  rw [fmMatch_dash, hwsr]
  have hidx : nlIdxDesc ['\n'] = [0] := by decide
  rw [hidx, tryKs]
  simp only [List.drop_succ_cons, List.drop_zero]
  rw [findClose_join after ls' L0 hL0 hls']

/-- Scanning the joined block finds nothing when every line either does not
contain the key in its key region or is the key's own line with an empty value. -/
theorem searchLines_none (key : List Char) (hgk : goodSearchKey key) :
    ∀ (ls : List FieldLine), (∀ L ∈ ls, goodLine L) →
    (∀ L ∈ ls, occursB key L.key = false ∨ (L.key = key ∧ L.value = [])) →
    searchVal key (joinLines (ls.map lineChars)) = none := by
  intro ls
  induction ls with
  | nil =>
    intro _ _
    simp [joinLines, searchVal]
  | cons L ls' ih =>
    intro hg hcond
    have hL : goodLine L := hg L (List.mem_cons_self _ _)
    have hcL := hcond L (List.mem_cons_self _ _)
    have hskip : ∀ (T : List Char), (T = [] ∨ ∃ x, T = '\n' :: x) →
        searchVal key (lineChars L ++ T) = searchVal key T := by
      intro T hT
      rcases hcL with hocc | ⟨hk, hv⟩
      · exact skipLine key L T hgk hL hocc hT
      · exact lineEmptyHit key L T hgk hL hk hv hT
    cases ls' with
    | nil =>
      simp only [List.map_cons, List.map_nil, joinLines]
      rw [show lineChars L = lineChars L ++ [] from (List.append_nil _).symm]
      rw [hskip [] (Or.inl rfl)]
      rfl
    | cons M ls'' =>
      simp only [List.map_cons, joinLines]
      rw [hskip _ (Or.inr ⟨_, rfl⟩)]
      rw [searchVal_step_nl key _ hgk]
      have := ih (fun K hK => hg K (List.mem_cons_of_mem _ hK))
        (fun K hK => hcond K (List.mem_cons_of_mem _ hK))
      simpa using this

/-- Scanning the joined block returns the value of the first line carrying the
key with a nonempty value, given the key does not occur in any earlier line's
key region. -/
theorem searchLines_hit (key : List Char) (hgk : goodSearchKey key) :
    ∀ (pre : List FieldLine) (T : FieldLine) (post : List FieldLine),
    (∀ L ∈ pre ++ T :: post, goodLine L) →
    (∀ L ∈ pre, occursB key L.key = false) →
    T.key = key → T.value ≠ [] →
    searchVal key (joinLines ((pre ++ T :: post).map lineChars)) = some T.value := by
  intro pre
  induction pre with
  | nil =>
    intro T post hg _ hk hv
    have hT : goodLine T := hg T (List.mem_cons_self _ _)
    cases post with
    | nil =>
      simp only [List.nil_append, List.map_cons, List.map_nil, joinLines]
      rw [show lineChars T = lineChars T ++ [] from (List.append_nil _).symm]
      exact lineHit key T [] hgk hT hk hv
    | cons M post' =>
      simp only [List.nil_append, List.map_cons, joinLines]
      exact lineHit key T _ hgk hT hk hv
  | cons L pre' ih =>
    intro T post hg hpre hk hv
    have hL : goodLine L := hg L (List.mem_cons_self _ _)
    have hocc : occursB key L.key = false := hpre L (List.mem_cons_self _ _)
    have hne : (pre' ++ T :: post).map lineChars ≠ [] := by simp
    rw [List.cons_append, List.map_cons, joinLines_cons_of_ne _ _ hne]
    rw [skipLine key L _ hgk hL hocc (Or.inr ⟨_, rfl⟩)]
    rw [searchVal_step_nl key _ hgk]
    exact ih T post (fun K hK => hg K (List.mem_cons_of_mem _ hK))
      (fun K hK => hpre K (List.mem_cons_of_mem _ hK)) hk hv

/-- A filter returning a singleton splits the list around the unique hit. -/
theorem filter_singleton_decomp {α : Type} (p : α → Bool) :
    ∀ (l : List α) (x : α), l.filter p = [x] →
    ∃ a b, l = a ++ x :: b ∧ (∀ y ∈ a, p y = false) ∧ (∀ y ∈ b, p y = false)
      ∧ p x = true := by
  intro l
  induction l with
  | nil => intro x h; exact absurd h (by simp)
  | cons c l' ih =>
    intro x h
    cases hp : p c with
    | true =>
      rw [List.filter_cons_of_pos (by simp [hp])] at h
      obtain ⟨hcx, hrest⟩ := List.cons_eq_cons.mp h
      refine ⟨[], l', by rw [hcx]; rfl, by simp, ?_, hcx ▸ hp⟩
      intro y hy
      have := List.filter_eq_nil_iff.mp hrest y hy
      simpa using this
    | false =>
      rw [List.filter_cons_of_neg (by simp [hp])] at h
      obtain ⟨a, b, hl, ha, hb, hx⟩ := ih x h
      refine ⟨c :: a, b, by rw [hl]; rfl, ?_, hb, hx⟩
      intro y hy
      rcases List.mem_cons.mp hy with rfl | hy'
      · exact hp
      · exact ha y hy'

/-- C4 (amended): for every document whose metadata block is a canonical run of
field lines between the two `---` delimiters — each line a key ending in a colon,
optional non-newline spacing, and a value enclosed in matching single or double
quotes, where values contain no quote and no newline characters (colons and
emptiness are allowed) and every line's key is `title:`, `description:`, or a key
in which neither `title:` nor `description:` occurs as a substring — and which
contains exactly one `title:` line and exactly one `description:` line, in either
order and with any other such lines around them, the Content Parser returns
exactly the title and description string values with the enclosing quotes
stripped. -/
theorem claim_C4_amended (lines : List FieldLine) (after : List Char) (T D : FieldLine)
    (hg : ∀ L ∈ lines, goodLine L)
    (hkeys : ∀ L ∈ lines, L.key = titleKey ∨ L.key = descKey
        ∨ (occursB titleKey L.key = false ∧ occursB descKey L.key = false))
    (hfT : lines.filter (fun L => L.key = titleKey) = [T])
    (hfD : lines.filter (fun L => L.key = descKey) = [D]) :
    parse_frontmatter (String.mk ('-' :: '-' :: '-' :: '\n' ::
        (joinLines (lines.map lineChars) ++ '\n' :: '-' :: '-' :: '-' :: '\n' :: after)))
      = (String.mk T.value, String.mk D.value) := by
  obtain ⟨a, b, hlines, haT, hbT, hpT⟩ := filter_singleton_decomp _ lines T hfT
  obtain ⟨a2, b2, hlines2, haD, hbD, hpD⟩ := filter_singleton_decomp _ lines D hfD
  have hTk : T.key = titleKey := of_decide_eq_true hpT
  have hDk : D.key = descKey := of_decide_eq_true hpD
  have hOccT : ∀ L ∈ lines, L.key ≠ titleKey → occursB titleKey L.key = false := by
    intro L hL hne
    rcases hkeys L hL with h1 | h2 | h3
    · exact absurd h1 hne
    · rw [h2]; decide
    · exact h3.1
  have hOccD : ∀ L ∈ lines, L.key ≠ descKey → occursB descKey L.key = false := by
    intro L hL hne
    rcases hkeys L hL with h1 | h2 | h3
    · rw [h1]; decide
    · exact absurd h2 hne
    · exact h3.2
  have hgkT : goodSearchKey titleKey := by decide
  have hgkD : goodSearchKey descKey := by decide
  obtain ⟨L0, ls', hsh⟩ : ∃ L0 ls', lines = L0 :: ls' := by
    cases hlx : lines with
    | nil =>
      rw [hlx] at hlines
      exact absurd hlines.symm (by simp)
    | cons L0 ls' => exact ⟨L0, ls', rfl⟩
  have hfm := fmMatch_lines lines after L0 ls' hsh hg
  have hpf := parse_frontmatter_of_fm
    (String.mk ('-' :: '-' :: '-' :: '\n' ::
      (joinLines (lines.map lineChars) ++ '\n' :: '-' :: '-' :: '-' :: '\n' :: after)))
    (joinLines (lines.map lineChars)) hfm
  rw [hpf]
  have hT1 : String.mk ((searchVal titleKey (joinLines (lines.map lineChars))).getD [])
      = String.mk T.value := by
    by_cases hTv : T.value = []
    · have hnone : searchVal titleKey (joinLines (lines.map lineChars)) = none := by
        apply searchLines_none titleKey hgkT lines hg
        intro L hL
        rw [hlines] at hL
        rcases List.mem_append.mp hL with hLa | hLb
        · left
          refine hOccT L (by rw [hlines]; exact List.mem_append.mpr (Or.inl hLa)) ?_
          intro hEq
          have := haT L hLa
          rw [hEq] at this
          simp at this
        rcases List.mem_cons.mp hLb with rfl | hLb'
        · right
          exact ⟨hTk, hTv⟩
        · left
          have hmem : L ∈ lines := by
            rw [hlines]
            exact List.mem_append.mpr (Or.inr (List.mem_cons_of_mem _ hLb'))
          refine hOccT L hmem ?_
          intro hEq
          have := hbT L hLb'
          rw [hEq] at this
          simp at this
      simp [hnone, hTv]
    · have hpre : ∀ L ∈ a, occursB titleKey L.key = false := by
        intro L hLa
        refine hOccT L (by rw [hlines]; exact List.mem_append.mpr (Or.inl hLa)) ?_
        intro hEq
        have := haT L hLa
        rw [hEq] at this
        simp at this
      have hsome := searchLines_hit titleKey hgkT a T b (hlines ▸ hg) hpre hTk hTv
      rw [hlines, hsome]
      rfl
  have hD1 : String.mk ((searchVal descKey (joinLines (lines.map lineChars))).getD [])
      = String.mk D.value := by
    by_cases hDv : D.value = []
    · have hnone : searchVal descKey (joinLines (lines.map lineChars)) = none := by
        apply searchLines_none descKey hgkD lines hg
        intro L hL
        rw [hlines2] at hL
        rcases List.mem_append.mp hL with hLa | hLb
        · left
          refine hOccD L (by rw [hlines2]; exact List.mem_append.mpr (Or.inl hLa)) ?_
          intro hEq
          have := haD L hLa
          rw [hEq] at this
          simp at this
        rcases List.mem_cons.mp hLb with rfl | hLb'
        · right
          exact ⟨hDk, hDv⟩
        · left
          have hmem : L ∈ lines := by
            rw [hlines2]
            exact List.mem_append.mpr (Or.inr (List.mem_cons_of_mem _ hLb'))
          refine hOccD L hmem ?_
          intro hEq
          have := hbD L hLb'
          rw [hEq] at this
          simp at this
      simp [hnone, hDv]
    · have hpre : ∀ L ∈ a2, occursB descKey L.key = false := by
        intro L hLa
        refine hOccD L (by rw [hlines2]; exact List.mem_append.mpr (Or.inl hLa)) ?_
        intro hEq
        have := haD L hLa
        rw [hEq] at this
        simp at this
      have hsome := searchLines_hit descKey hgkD a2 D b2 (hlines2 ▸ hg) hpre hDk hDv
      rw [hlines2, hsome]
      rfl
  rw [hT1, hD1]

/-- Witness for C4 (amended): a block with the description line first (empty
spacing after the colon, a colon inside the value), an extra `author:` line, and
a double-quoted title line with two spaces after the colon parses to exactly the
two values. -/
theorem claim_C4_witness :
    parse_frontmatter (String.mk ('-' :: '-' :: '-' :: '\n' ::
        (joinLines (([⟨descKey, [], '\'', "Nice: stuff".data⟩,
            ⟨"author:".data, [' '], '\'', "Bob".data⟩,
            ⟨titleKey, [' ', ' '], '"', "My Lab".data⟩] : List FieldLine).map lineChars)
          ++ '\n' :: '-' :: '-' :: '-' :: '\n' :: "body".data)))
      = ("My Lab", "Nice: stuff") :=
  claim_C4_amended
    [⟨descKey, [], '\'', "Nice: stuff".data⟩,
      ⟨"author:".data, [' '], '\'', "Bob".data⟩,
      ⟨titleKey, [' ', ' '], '"', "My Lab".data⟩]
    "body".data
    ⟨titleKey, [' ', ' '], '"', "My Lab".data⟩
    ⟨descKey, [], '\'', "Nice: stuff".data⟩
    (by decide) (by decide) (by decide) (by decide)
